import Mathlib

/-!
Verification of the Aho-Corasick multi-pattern string matcher
(`src/aho_corasick_matcher.py`).

The Python classes `AhoCorasickNode` / `AhoCorasick` are embedded as an
arena: the automaton owns a list of nodes and every reference to a node
(child pointers, failure links) is an index into that list.  The root is
index 0.  `failure_link = None` of the source is modelled as index 0: the
link of a non-root node is always assigned before it is ever read, and the
root's link is never read (both loops that follow failure links stop at
the root first), so the encoding is observationally faithful.

The two `while` loops that follow failure links and the BFS `while queue`
loop are given explicit fuel; the number of nodes of the automaton is
always enough fuel (proved below for automata produced by the public API,
see the termination results).
-/

structure ACNode where
  children : List (Char × Nat)
  failure_link : Nat
  output : List Nat
  is_end_of_pattern : Bool
deriving DecidableEq

/-- `AhoCorasickNode.__init__`: empty children, no failure link, empty
output, not a terminal. -/
def ACNode.init : ACNode :=
  { children := [], failure_link := 0, output := [], is_end_of_pattern := false }

structure AhoCorasick where
  nodes : List ACNode
  patterns : List String
deriving DecidableEq

/-- `AhoCorasick.__init__`: a single root node and no patterns. -/
def AhoCorasick.init : AhoCorasick :=
  { nodes := [ACNode.init], patterns := [] }

/-- Replace node `i` of the arena by `f` of it (no-op when out of range). -/
def setNode (ns : List ACNode) (i : Nat) (f : ACNode → ACNode) : List ACNode :=
  ns.set i (f ((ns[i]?).getD ACNode.init))

def childrenOf (ns : List ACNode) (i : Nat) : List (Char × Nat) :=
  ((ns[i]?).getD ACNode.init).children

def failOf (ns : List ACNode) (i : Nat) : Nat :=
  ((ns[i]?).getD ACNode.init).failure_link

def outOf (ns : List ACNode) (i : Nat) : List Nat :=
  ((ns[i]?).getD ACNode.init).output

def endOf (ns : List ACNode) (i : Nat) : Bool :=
  ((ns[i]?).getD ACNode.init).is_end_of_pattern

/-- `char in current.children` / `current.children[char]`: the children
dictionary keyed by character (keys are unique by construction). -/
def lookupChild (ns : List ACNode) (i : Nat) (c : Char) : Option Nat :=
  ((childrenOf ns i).find? (fun e => e.1 == c)).map (fun e => e.2)

/-- Follow the trie transitions from node `i` along a string. -/
def walkFrom (ns : List ACNode) (i : Nat) : List Char → Option Nat
  | [] => some i
  | c :: cs =>
    match lookupChild ns i c with
    | some j => walkFrom ns j cs
    | none => none

/-- The character-walk of `add_pattern`: from node `i`, follow each
character, creating a fresh node whenever the transition is missing.
Returns the updated arena together with the final node. -/
def addChars (ns : List ACNode) (i : Nat) : List Char → List ACNode × Nat
  | [] => (ns, i)
  | c :: cs =>
    match lookupChild ns i c with
    | some j => addChars ns j cs
    | none =>
      let j := ns.length
      let ns1 := setNode ns i (fun nd => { nd with children := nd.children ++ [(c, j)] })
      addChars (ns1 ++ [ACNode.init]) j cs

/-- `AhoCorasick.add_pattern`: reject the empty pattern, otherwise record
the pattern (its identifier is its position in `patterns`), walk/create
the trie path and mark the final node. -/
def AhoCorasick.add_pattern (ac : AhoCorasick) (p : String) : AhoCorasick :=
  if p.data = [] then ac
  else
    let pid := ac.patterns.length
    let r := addChars ac.nodes 0 p.data
    let ns := setNode r.1 r.2 (fun nd =>
      { nd with is_end_of_pattern := true, output := nd.output ++ [pid] })
    { nodes := ns, patterns := ac.patterns ++ [p] }

/-- The failure-link walk shared by `build_failure_links` and `search`:
`while node != root and char not in node.children: node = node.failure_link`.
The loop is fuelled; `ns.length` fuel always suffices on built automata. -/
def walkFail (ns : List ACNode) (c : Char) : Nat → Nat → Nat
  | f, 0 => f
  | f, fuel + 1 =>
    if f = 0 then f
    else
      match lookupChild ns f c with
      | some _ => f
      | none => walkFail ns c (failOf ns f) fuel

/-- Body of the `for char, child_node in current_node.children.items()`
loop of `build_failure_links`: set each child's failure link and extend
its output, collecting the children in queue order. -/
def procChildren (ns : List ACNode) (cur : Nat) :
    List (Char × Nat) → List ACNode × List Nat
  | [] => (ns, [])
  | (c, child) :: rest =>
    let stop := walkFail ns c (failOf ns cur) ns.length
    let target := (lookupChild ns stop c).getD 0
    let ns1 := setNode ns child (fun nd =>
      { nd with failure_link := target, output := nd.output ++ outOf ns target })
    let r := procChildren ns1 cur rest
    (r.1, child :: r.2)

/-- The `while queue` loop of `build_failure_links` (fuelled FIFO). -/
def bfsLoop : Nat → List ACNode → List Nat → List ACNode
  | _, ns, [] => ns
  | 0, ns, _ => ns
  | fuel + 1, ns, cur :: rest =>
    let r := procChildren ns cur (childrenOf ns cur)
    bfsLoop fuel r.1 (rest ++ r.2)

/-- `AhoCorasick.build_failure_links`: root children get failure link =
root and seed the BFS queue; then the queue is processed FIFO. -/
def AhoCorasick.build_failure_links (ac : AhoCorasick) : AhoCorasick :=
  let rootChildren := (childrenOf ac.nodes 0).map (fun e => e.2)
  let ns0 := rootChildren.foldl
    (fun ns j => setNode ns j (fun nd => { nd with failure_link := 0 })) ac.nodes
  { ac with nodes := bfsLoop ac.nodes.length ns0 rootChildren }

/-- One pass of `search` over the remaining text.  `i` is the 0-based
index of the current character, `cur` the current node.  Matches are
`(i - len(pattern) + 1, pattern)` pairs with integer arithmetic as in the
source. -/
def searchLoop (ns : List ACNode) (pats : List String) (fuel : Nat) :
    Nat → Nat → List Char → List (Int × String)
  | _, _, [] => []
  | i, cur, c :: cs =>
    let stop := walkFail ns c cur fuel
    let cur1 :=
      match lookupChild ns stop c with
      | some j => j
      | none => stop
    let ms := (outOf ns cur1).map (fun pid =>
      let pat := (pats[pid]?).getD ""
      (((i : Int) - (pat.length : Int) + 1), pat))
    ms ++ searchLoop ns pats fuel (i + 1) cur1 cs

/-- `AhoCorasick.search`. -/
def AhoCorasick.search (ac : AhoCorasick) (text : String) : List (Int × String) :=
  searchLoop ac.nodes ac.patterns ac.nodes.length 0 0 text.data

/-- The node the scan loop reaches from `cur` on character `c`: follow
failure links while no `c`-transition exists (the `while` loop), then
take the `c`-transition when present, else stay (necessarily at root). -/
def nextState (ns : List ACNode) (fuel : Nat) (c : Char) (cur : Nat) : Nat :=
  match lookupChild ns (walkFail ns c cur fuel) c with
  | some j => j
  | none => walkFail ns c cur fuel

/-- `search` with the automaton threaded through the scan as explicit
state, mirroring the method's access to `self`: every step returns the
state unchanged because no statement of `search` assigns to `self`. -/
def searchLoopST (st : AhoCorasick) (fuel : Nat) :
    Nat → Nat → List Char → AhoCorasick × List (Int × String)
  | _, _, [] => (st, [])
  | i, cur, c :: cs =>
    let stop := walkFail st.nodes c cur fuel
    let cur1 :=
      match lookupChild st.nodes stop c with
      | some j => j
      | none => stop
    let ms := (outOf st.nodes cur1).map (fun pid =>
      let pat := (st.patterns[pid]?).getD ""
      (((i : Int) - (pat.length : Int) + 1), pat))
    let r := searchLoopST st fuel (i + 1) cur1 cs
    (r.1, ms ++ r.2)

def AhoCorasick.searchST (ac : AhoCorasick) (text : String) :
    AhoCorasick × List (Int × String) :=
  searchLoopST ac ac.nodes.length 0 0 text.data

/-- `AhoCorasickMatcher.handle_empty_pattern`: the harness fallback for an
empty pattern. -/
def handle_empty_pattern (text : String) (ground_truth : List Nat) : List Nat :=
  if ground_truth ≠ [] then ground_truth
  else List.range (min 50 text.length)

/-- `BuildAutomaton` of the spec: insert every pattern, then compute the
failure links (the flow of `AhoCorasickMatcher.build_automaton`). -/
def buildAutomaton (ps : List String) : AhoCorasick :=
  (ps.foldl AhoCorasick.add_pattern AhoCorasick.init).build_failure_links

/-- Modelled from the spec: the naive O(|T|*|P|) sliding-window
exact-match scan that `Search` is compared against ("the offsets returned
by a naive sliding-window exact-match scan"). -/
def naiveMatches (P T : List Char) : List Nat :=
  (List.range (T.length + 1 - P.length)).filter
    (fun k => (T.drop k).take P.length = P)

/-- The path-labels of the trie built from patterns `ps`: the empty
string (root) and every non-empty prefix of a pattern. -/
def isLabelOf (ps : List String) (s : List Char) : Bool :=
  s.isEmpty || ps.any (fun p => s.isPrefixOf p.data)

/-- The longest suffix of `s` (possibly `s` itself) that is a path-label.
This is the abstract state reached by the scanner after consuming `s`. -/
def longestLabelSuffix (ps : List String) : List Char → List Char
  | [] => []
  | s@(_ :: rest) => if isLabelOf ps s then s else longestLabelSuffix ps rest

/-- The longest proper suffix of `s` that is a path-label: the value the
failure link of the state labelled `s` must denote. -/
def failLabel (ps : List String) (s : List Char) : List Char :=
  longestLabelSuffix ps s.tail

/-- Where the failure-link walk on character `c`, started at the state
labelled `s`, stops: the longest label-suffix `t` of `s` (including `s`)
whose state has a `c`-transition, or the root when none exists. -/
def chainStop (ps : List String) (c : Char) : List Char → List Char
  | [] => []
  | s@(_ :: rest) =>
    if isLabelOf ps s && isLabelOf ps (s ++ [c]) then s
    else chainStop ps c rest

/-- The pattern identifiers whose pattern equals `s` (the literal output
recorded by `add_pattern`, in insertion order). -/
def idsEqualTo (pats : List String) (s : List Char) : List Nat :=
  (List.range pats.length).filter (fun j => ((pats[j]?).getD "").data == s)

/-- The pattern identifiers whose pattern is a suffix of `s` (the output
set after failure-link propagation, as a set). -/
def idsSuffixOf (pats : List String) (s : List Char) : List Nat :=
  (List.range pats.length).filter (fun j => ((pats[j]?).getD "").data.isSuffixOf s)

/-- The matches that `search` emits while reading character `i` of `T`:
one per identifier whose pattern ends at position `i`. -/
def emitAt (pats : List String) (T : List Char) (i : Nat) : List (Int × String) :=
  (idsSuffixOf pats (T.take (i + 1))).map (fun pid =>
    let pat := (pats[pid]?).getD ""
    (((i : Int) - (pat.length : Int) + 1), pat))

/-- All matches of all patterns in `T`, grouped by end position. -/
def canonicalMatches (pats : List String) (T : List Char) : List (Int × String) :=
  ((List.range T.length).map (emitAt pats T)).flatten

/-- The arena after `add_pattern` creates one fresh node: a `(c, fresh)`
entry is appended to node `i`'s children and the fresh node to the arena.
This is exactly the missing-transition branch of `addChars`. -/
def extendArena (ns : List ACNode) (i : Nat) (c : Char) : List ACNode :=
  setNode ns i (fun nd => { nd with children := nd.children ++ [(c, ns.length)] })
    ++ [ACNode.init]

/-- Every pattern identifier recorded in any output list is below `m`
(`m` will be the length of the `patterns` list). -/
def OutBnd (ns : List ACNode) (m : Nat) : Prop :=
  ∀ i, ∀ id ∈ outOf ns i, id < m

/-- Structural well-formedness of the node arena: the root exists, child
indices are in range and strictly above their parent (nodes are appended
after their parent, so the child relation is acyclic), and the keys of
each children dictionary are distinct. -/
structure ArenaWF (ns : List ACNode) : Prop where
  root_lt : 0 < ns.length
  childLt : ∀ i, ∀ e ∈ childrenOf ns i, e.2 < ns.length ∧ i < e.2
  keysNodup : ∀ i, ((childrenOf ns i).map Prod.fst).Nodup

/-- Full characterisation of the automaton after the insertion phase
(before `build_failure_links`): the trie states are in bijection with the
path-labels `isLabelOf ps`, literal outputs hold exactly the identifiers
of patterns equal to the state's label, and no failure link is set. -/
structure TrieSpec (ps : List String) (ac : AhoCorasick) : Prop where
  wf : ArenaWF ac.nodes
  pats : ac.patterns = ps.filter (fun p => !p.data.isEmpty)
  dom : ∀ s, (walkFrom ac.nodes 0 s).isSome = isLabelOf ps s
  inj : ∀ s t k, walkFrom ac.nodes 0 s = some k → walkFrom ac.nodes 0 t = some k → s = t
  surj : ∀ k, k < ac.nodes.length → ∃ s, walkFrom ac.nodes 0 s = some k
  out_spec : ∀ s k, walkFrom ac.nodes 0 s = some k →
    outOf ac.nodes k = idsEqualTo ac.patterns s
  end_spec : ∀ s k, walkFrom ac.nodes 0 s = some k →
    endOf ac.nodes k = !(idsEqualTo ac.patterns s).isEmpty
  fail0 : ∀ i, failOf ac.nodes i = 0

/-- Full characterisation of the automaton after `build_failure_links`:
the trie shape is unchanged, every non-root state's failure link denotes
the longest proper label-suffix of its label, and every state's output
lists exactly (and without duplication) the identifiers of patterns that
are suffixes of its label. -/
structure AutSpec (ps : List String) (ac : AhoCorasick) : Prop where
  wf : ArenaWF ac.nodes
  pats : ac.patterns = ps.filter (fun p => !p.data.isEmpty)
  dom : ∀ s, (walkFrom ac.nodes 0 s).isSome = isLabelOf ps s
  inj : ∀ s t k, walkFrom ac.nodes 0 s = some k → walkFrom ac.nodes 0 t = some k → s = t
  surj : ∀ k, k < ac.nodes.length → ∃ s, walkFrom ac.nodes 0 s = some k
  fail_spec : ∀ s k, walkFrom ac.nodes 0 s = some k → k ≠ 0 →
    walkFrom ac.nodes 0 (failLabel ps s) = some (failOf ac.nodes k)
  out_mem : ∀ s k, walkFrom ac.nodes 0 s = some k →
    ∀ j, j ∈ outOf ac.nodes k ↔ j ∈ idsSuffixOf ac.patterns s
  out_nodup : ∀ k, (outOf ac.nodes k).Nodup

/-- A node of the breadth-first phase whose failure link and output list
have reached their final value: the failure link denotes the longest
proper label-suffix of the node's label, and the output lists exactly the
patterns that are suffixes of the label, without duplicates.  `tr` is the
automaton as left by the insertion phase (whose walks and literal fields
never change during the build). -/
def DoneNode (ps : List String) (tr : AhoCorasick) (ns : List ACNode) (k : Nat) : Prop :=
  (∀ s, walkFrom tr.nodes 0 s = some k →
    walkFrom tr.nodes 0 (failLabel ps s) = some (failOf ns k) ∧
    (∀ j, j ∈ outOf ns k ↔ j ∈ idsSuffixOf tr.patterns s)) ∧
  (outOf ns k).Nodup

/-- A node the breadth-first phase has not yet written to. -/
def UntouchedNode (tr : AhoCorasick) (ns : List ACNode) (k : Nat) : Prop :=
  failOf ns k = failOf tr.nodes k ∧ outOf ns k = outOf tr.nodes k

/-- The invariant of the breadth-first queue loop of `build_failure_links`:
`P` is the set of already-processed nodes, `queue` the pending FIFO queue
(the enqueued-but-unprocessed nodes), `d` the depth of the current BFS
level.  Nodes are enqueued exactly when their parent is processed (or is
the root), enqueued nodes are final (`DoneNode`), unenqueued nodes are
untouched, and the queue holds the tail of level `d` followed by a prefix
of level `d+1` while every node of depth at most `d` is already enqueued. -/
structure BfsInv (ps : List String) (tr : AhoCorasick) (P : Finset Nat) (d : Nat)
    (ns : List ACNode) (queue : List Nat) : Prop where
  hch : ∀ k, childrenOf ns k = childrenOf tr.nodes k
  hlen : ns.length = tr.nodes.length
  rootP : 0 ∉ P
  rootQ : 0 ∉ queue
  hPlab : ∀ k ∈ P, ∃ s, walkFrom tr.nodes 0 s = some k
  hQlab : ∀ k ∈ queue, ∃ s, walkFrom tr.nodes 0 s = some k
  enq_iff : ∀ i c j, (c, j) ∈ childrenOf tr.nodes i →
    ((j ∈ P ∨ j ∈ queue) ↔ (i ∈ P ∨ i = 0))
  qnodup : queue.Nodup
  qdisj : ∀ j ∈ queue, j ∉ P
  hdone : ∀ j, (j = 0 ∨ j ∈ P ∨ j ∈ queue) → DoneNode ps tr ns j
  huntouched : ∀ j, j ≠ 0 → j ∉ P → j ∉ queue → UntouchedNode tr ns j
  hlevel : ∃ qA qB, queue = qA ++ qB ∧
    (∀ j ∈ qA, ∀ s, walkFrom tr.nodes 0 s = some j → s.length = d) ∧
    (∀ j ∈ qB, ∀ s, walkFrom tr.nodes 0 s = some j → s.length = d + 1) ∧
    (∀ j s, walkFrom tr.nodes 0 s = some j → s.length ≤ d → j ≠ 0 →
      (j ∈ P ∨ j ∈ queue))
  hd1 : 1 ≤ d

/-! ## Basic arena lemmas -/

theorem length_setNode (ns : List ACNode) (i : Nat) (f : ACNode → ACNode) :
    (setNode ns i f).length = ns.length := by
  simp [setNode]

theorem getElem?_setNode_ne (ns : List ACNode) {i j : Nat} (f : ACNode → ACNode)
    (h : i ≠ j) : (setNode ns i f)[j]? = ns[j]? := by
  simp [setNode, List.getElem?_set_ne h]

theorem getElem?_setNode_self (ns : List ACNode) {i : Nat} (f : ACNode → ACNode)
    (h : i < ns.length) :
    (setNode ns i f)[i]? = some (f ((ns[i]?).getD ACNode.init)) := by
  simp [setNode, List.getElem?_set_self h]

theorem outOf_setNode_of_output_eq (ns : List ACNode) (i : Nat) (f : ACNode → ACNode)
    (h : ∀ nd, (f nd).output = nd.output) (j : Nat) :
    outOf (setNode ns i f) j = outOf ns j := by
  rcases eq_or_ne i j with rfl | hne
  · by_cases hlt : i < ns.length
    · simp [outOf, getElem?_setNode_self ns f hlt, h]
    · simp [outOf, setNode, List.getElem?_set, hlt,
        List.getElem?_eq_none_iff.2 (Nat.le_of_not_lt hlt)]
  · simp [outOf, getElem?_setNode_ne ns f hne]

theorem outOf_append_init (ns : List ACNode) (j : Nat) :
    outOf (ns ++ [ACNode.init]) j = if j < ns.length then outOf ns j else [] := by
  by_cases h : j < ns.length
  · simp [outOf, List.getElem?_append, h]
  · rcases eq_or_ne j ns.length with rfl | hne
    · simp [outOf, List.getElem?_append_right (le_refl ns.length), ACNode.init]
    · have hnone : (ns ++ [ACNode.init])[j]? = none :=
        List.getElem?_eq_none_iff.2 (by simp; omega)
      rw [outOf, hnone, if_neg h]
      rfl

theorem OutBnd.mono {ns : List ACNode} {m m' : Nat} (h : OutBnd ns m) (hm : m ≤ m') :
    OutBnd ns m' :=
  fun i id hid => lt_of_lt_of_le (h i id hid) hm

theorem OutBnd_addChars {ns : List ACNode} {m : Nat} (h : OutBnd ns m) (i : Nat)
    (cs : List Char) : OutBnd (addChars ns i cs).1 m := by
  induction cs generalizing ns i with
  | nil => simpa [addChars] using h
  | cons c cs ih =>
    simp only [addChars]
    cases hlook : lookupChild ns i c with
    | some j => exact ih h j
    | none =>
      apply ih
      intro j id hid
      rw [outOf_append_init] at hid
      split at hid
      · rw [outOf_setNode_of_output_eq] at hid
        · exact h _ _ hid
        · intro nd; rfl
      · simp at hid

theorem OutBnd_add_pattern {ac : AhoCorasick} (h : OutBnd ac.nodes ac.patterns.length)
    (p : String) : OutBnd (ac.add_pattern p).nodes (ac.add_pattern p).patterns.length := by
  unfold AhoCorasick.add_pattern
  split
  · exact h
  · intro j id hid
    simp only at hid ⊢
    have hbase : OutBnd (addChars ac.nodes 0 p.data).1 ac.patterns.length :=
      OutBnd_addChars h 0 p.data
    set r := addChars ac.nodes 0 p.data with hr
    rcases eq_or_ne r.2 j with rfl | hne
    · by_cases hlt : r.2 < r.1.length
      · rw [outOf, getElem?_setNode_self _ _ hlt] at hid
        simp only [Option.getD_some] at hid
        rcases List.mem_append.1 hid with hid | hid
        · exact lt_of_lt_of_le (hbase _ _ hid) (by simp)
        · simp only [List.mem_singleton] at hid
          subst hid
          simp
      · rw [outOf, setNode, List.getElem?_set, if_pos rfl, if_neg hlt] at hid
        exact absurd hid (by simp [ACNode.init])
    · rw [outOf, getElem?_setNode_ne _ _ hne] at hid
      have := hbase j id (by simpa [outOf] using hid)
      exact lt_of_lt_of_le this (by simp)

theorem OutBnd_foldl_add_pattern (ps : List String) {ac : AhoCorasick}
    (h : OutBnd ac.nodes ac.patterns.length) :
    OutBnd (ps.foldl AhoCorasick.add_pattern ac).nodes
      (ps.foldl AhoCorasick.add_pattern ac).patterns.length := by
  induction ps generalizing ac with
  | nil => exact h
  | cons p ps ih => exact ih (OutBnd_add_pattern h p)

theorem OutBnd_procChildren {ns : List ACNode} {m : Nat} (h : OutBnd ns m)
    (cur : Nat) (l : List (Char × Nat)) : OutBnd (procChildren ns cur l).1 m := by
  induction l generalizing ns with
  | nil => simpa [procChildren] using h
  | cons e rest ih =>
    obtain ⟨c, child⟩ := e
    simp only [procChildren]
    apply ih
    intro j id hid
    rcases eq_or_ne child j with rfl | hne
    · by_cases hlt : child < ns.length
      · rw [outOf, getElem?_setNode_self _ _ hlt] at hid
        simp only [Option.getD_some] at hid
        rcases List.mem_append.1 hid with hid | hid
        · exact h _ _ hid
        · exact h _ _ hid
      · rw [outOf, setNode, List.getElem?_set, if_pos rfl, if_neg hlt] at hid
        exact absurd hid (by simp [ACNode.init])
    · rw [outOf, getElem?_setNode_ne _ _ hne] at hid
      exact h j id (by simpa [outOf] using hid)

theorem OutBnd_bfsLoop {m : Nat} (fuel : Nat) (ns : List ACNode) (queue : List Nat)
    (h : OutBnd ns m) : OutBnd (bfsLoop fuel ns queue) m := by
  induction fuel generalizing ns queue with
  | zero => cases queue <;> simpa [bfsLoop]
  | succ fuel ih =>
    cases queue with
    | nil => simpa [bfsLoop]
    | cons cur rest =>
      simp only [bfsLoop]
      exact ih _ _ (OutBnd_procChildren h cur _)

theorem OutBnd_foldl_setFail {m : Nat} (js : List Nat) (ns : List ACNode)
    (h : OutBnd ns m) :
    OutBnd (js.foldl
      (fun ns j => setNode ns j (fun nd => { nd with failure_link := 0 })) ns) m := by
  induction js generalizing ns with
  | nil => exact h
  | cons j js ih =>
    simp only [List.foldl_cons]
    apply ih
    intro k id hid
    rw [outOf_setNode_of_output_eq] at hid
    · exact h _ _ hid
    · intro nd; rfl

theorem OutBnd_build_failure_links {ac : AhoCorasick}
    (h : OutBnd ac.nodes ac.patterns.length) :
    OutBnd ac.build_failure_links.nodes ac.build_failure_links.patterns.length := by
  unfold AhoCorasick.build_failure_links
  exact OutBnd_bfsLoop _ _ _ (OutBnd_foldl_setFail _ _ h)

/-! ## The state-threaded scan returns the automaton unchanged -/

theorem searchLoopST_fst (st : AhoCorasick) (fuel : Nat) (i cur : Nat)
    (cs : List Char) : (searchLoopST st fuel i cur cs).1 = st := by
  induction cs generalizing i cur with
  | nil => rfl
  | cons c cs ih => simp only [searchLoopST]; exact ih _ _

theorem searchLoopST_snd (st : AhoCorasick) (fuel : Nat) (i cur : Nat)
    (cs : List Char) :
    (searchLoopST st fuel i cur cs).2 = searchLoop st.nodes st.patterns fuel i cur cs := by
  induction cs generalizing i cur with
  | nil => rfl
  | cons c cs ih => simp only [searchLoopST, searchLoop]; rw [ih]

/-! ## Claim theorems: the easy, self-contained ones -/

/-- C7: inserting the empty pattern is a no-op: the automaton (its node
arena and its pattern list) is entirely unchanged. -/
theorem add_pattern_empty_noop (ac : AhoCorasick) : ac.add_pattern "" = ac := by
  simp [AhoCorasick.add_pattern]

/-- C8: `search` never mutates the automaton: the scan, with the
automaton threaded through it as state, returns the state (all node
fields and the pattern list) unchanged, produces the same matches as
`search`, and a second scan of the same automaton and text returns an
identical result sequence. -/
theorem search_no_mutation (ac : AhoCorasick) (text : String) :
    (ac.searchST text).1 = ac ∧
    (ac.searchST text).2 = ac.search text ∧
    ((ac.searchST text).1.searchST text).2 = (ac.searchST text).2 := by
  have h1 : (ac.searchST text).1 = ac := searchLoopST_fst ac _ 0 0 text.data
  exact ⟨h1, searchLoopST_snd ac _ 0 0 text.data, by rw [h1]⟩

/-- C9: the harness's empty-pattern fallback: the supplied ground-truth
positions when non-empty, otherwise the first `min(50, |text|)` offsets;
in particular a text of length 5 with no ground truth yields
`[0, 1, 2, 3, 4]`. -/
theorem handle_empty_pattern_spec (text : String) (gt : List Nat) :
    (gt ≠ [] → handle_empty_pattern text gt = gt) ∧
    (gt = [] → handle_empty_pattern text gt = List.range (min 50 text.length)) ∧
    (text.length = 5 → handle_empty_pattern text [] = [0, 1, 2, 3, 4]) := by
  refine ⟨fun h => by simp [handle_empty_pattern, h], fun h => by simp [handle_empty_pattern, h], fun h => ?_⟩
  have : min 50 text.length = 5 := by omega
  simp [handle_empty_pattern, this]
  decide

theorem handle_empty_pattern_spec_witness :
    handle_empty_pattern "xy" [3, 1] = [3, 1] ∧ handle_empty_pattern "abcde" [] = [0, 1, 2, 3, 4] :=
  ⟨(handle_empty_pattern_spec "xy" [3, 1]).1 (by decide),
   (handle_empty_pattern_spec "abcde" []).2.2 (by decide)⟩

/-- C4 (counterexample): on patterns `["he", "she", "hers"]` and text
`"ushers"` the code does not return `[(2,"she"), (3,"he"), (3,"hers")]`;
the pair `(2, "she")` is not even among the returned matches. -/
theorem ushers_claimed_matches_false :
    AhoCorasick.search (buildAutomaton ["he", "she", "hers"]) "ushers"
        ≠ [(2, "she"), (3, "he"), (3, "hers")] ∧
    ((2 : Int), "she") ∉ AhoCorasick.search (buildAutomaton ["he", "she", "hers"]) "ushers" := by
  constructor <;> decide

/-- C4 (amended): on patterns `["he", "she", "hers"]` and text `"ushers"`
the matcher returns exactly `[(1,"she"), (2,"he"), (2,"hers")]`: "she"
starts at 0-based offset 1, "he" and "hers" at offset 2. -/
theorem ushers_matches :
    AhoCorasick.search (buildAutomaton ["he", "she", "hers"]) "ushers"
      = [(1, "she"), (2, "he"), (2, "hers")] := by
  decide

/-- C10: after any sequence of `add_pattern` calls followed by
`build_failure_links`, every identifier in every output list indexes into
the pattern list, so the `patterns[pattern_id]` lookup of `search` always
succeeds. -/
theorem output_ids_in_bounds (ps : List String) (i : Nat) (id : Nat)
    (hid : id ∈ outOf (buildAutomaton ps).nodes i) :
    id < (buildAutomaton ps).patterns.length ∧
      ((buildAutomaton ps).patterns[id]?).isSome := by
  have hb : OutBnd (buildAutomaton ps).nodes (buildAutomaton ps).patterns.length := by
    unfold buildAutomaton
    apply OutBnd_build_failure_links
    apply OutBnd_foldl_add_pattern
    intro j id' hid'
    have : outOf AhoCorasick.init.nodes j = [] := by
      rcases j with _ | j <;> simp [AhoCorasick.init, outOf, ACNode.init]
    rw [this] at hid'
    simp at hid'
  have hlt := hb i id hid
  exact ⟨hlt, by rw [List.getElem?_eq_getElem hlt]; rfl⟩

theorem output_ids_in_bounds_witness :
    (0 ∈ outOf (buildAutomaton ["ab"]).nodes 2) ∧
    (0 < (buildAutomaton ["ab"]).patterns.length ∧
      ((buildAutomaton ["ab"]).patterns[0]?).isSome) :=
  ⟨by decide, output_ids_in_bounds ["ab"] 2 0 (by decide)⟩

/-! ## Phase A: characterisation of the insertion phase -/

theorem walkFrom_append (ns : List ACNode) (i : Nat) (s t : List Char) :
    walkFrom ns i (s ++ t) = (walkFrom ns i s).bind (fun j => walkFrom ns j t) := by
  induction s generalizing i with
  | nil => simp [walkFrom]
  | cons c s ih =>
    simp only [List.cons_append, walkFrom]
    cases lookupChild ns i c with
    | some j => simp [ih]
    | none => simp

theorem lookupChild_mem {ns : List ACNode} {i : Nat} {c : Char} {j : Nat}
    (h : lookupChild ns i c = some j) : (c, j) ∈ childrenOf ns i := by
  unfold lookupChild at h
  cases hf : (childrenOf ns i).find? (fun e => e.1 == c) with
  | none => rw [hf] at h; simp at h
  | some e =>
    rw [hf] at h
    simp at h
    have he : e.1 = c := by simpa using List.find?_some hf
    have hmem := List.mem_of_find?_eq_some hf
    obtain ⟨e1, e2⟩ := e
    simp only at he h
    subst he h
    exact hmem

theorem find?_assoc_of_mem {l : List (Char × Nat)} (hnd : (l.map Prod.fst).Nodup)
    {c : Char} {j : Nat} (h : (c, j) ∈ l) :
    (l.find? (fun e => e.1 == c)).map (fun e => e.2) = some j := by
  induction l with
  | nil => simp at h
  | cons e rest ih =>
    rw [List.map_cons, List.nodup_cons] at hnd
    cases hc : (e.1 == c) with
    | true =>
      have he : e.1 = c := by simpa using hc
      rcases List.mem_cons.1 h with rfl | hmem
      · simp [List.find?_cons, hc]
      · exact absurd (List.mem_map.2 ⟨(c, j), hmem, rfl⟩) (he ▸ hnd.1)
    | false =>
      rcases List.mem_cons.1 h with rfl | hmem
      · simp at hc
      · simp [List.find?_cons, hc, ih hnd.2 hmem]

theorem mem_lookupChild {ns : List ACNode} {i : Nat} {c : Char} {j : Nat}
    (hnd : ((childrenOf ns i).map Prod.fst).Nodup)
    (h : (c, j) ∈ childrenOf ns i) : lookupChild ns i c = some j :=
  find?_assoc_of_mem hnd h

theorem walkFrom_bounds {ns : List ACNode} (wf : ArenaWF ns) {i k : Nat}
    {s : List Char} (h : walkFrom ns i s = some k) (hi : i < ns.length) :
    k < ns.length ∧ i ≤ k := by
  induction s generalizing i with
  | nil =>
    simp only [walkFrom, Option.some_inj] at h
    exact ⟨h ▸ hi, h.le⟩
  | cons c s ih =>
    simp only [walkFrom] at h
    cases hl : lookupChild ns i c with
    | none => rw [hl] at h; simp at h
    | some j =>
      rw [hl] at h
      have hj := wf.childLt i _ (lookupChild_mem hl)
      obtain ⟨hk, hjk⟩ := ih h hj.1
      exact ⟨hk, le_trans (le_of_lt hj.2) hjk⟩

theorem childrenOf_oob {ns : List ACNode} {k : Nat} (h : ns.length ≤ k) :
    childrenOf ns k = [] := by
  simp [childrenOf, List.getElem?_eq_none_iff.2 h, ACNode.init]

theorem outOf_oob {ns : List ACNode} {k : Nat} (h : ns.length ≤ k) :
    outOf ns k = [] := by
  simp [outOf, List.getElem?_eq_none_iff.2 h, ACNode.init]

theorem failOf_oob {ns : List ACNode} {k : Nat} (h : ns.length ≤ k) :
    failOf ns k = 0 := by
  simp [failOf, List.getElem?_eq_none_iff.2 h, ACNode.init]

theorem endOf_oob {ns : List ACNode} {k : Nat} (h : ns.length ≤ k) :
    endOf ns k = false := by
  simp [endOf, List.getElem?_eq_none_iff.2 h, ACNode.init]

theorem extendArena_length (ns : List ACNode) (i : Nat) (c : Char) :
    (extendArena ns i c).length = ns.length + 1 := by
  simp [extendArena, length_setNode]

theorem childrenOf_extendArena_self {ns : List ACNode} {i : Nat} (c : Char)
    (hi : i < ns.length) :
    childrenOf (extendArena ns i c) i = childrenOf ns i ++ [(c, ns.length)] := by
  have hset : (setNode ns i (fun nd => { nd with children := nd.children ++ [(c, ns.length)] }))[i]?
      = some ({ (ns[i]?).getD ACNode.init with
          children := ((ns[i]?).getD ACNode.init).children ++ [(c, ns.length)] }) :=
    getElem?_setNode_self ns _ hi
  have hlt : i < (setNode ns i (fun nd => { nd with children := nd.children ++ [(c, ns.length)] })).length := by
    rw [length_setNode]; exact hi
  simp [extendArena, childrenOf, List.getElem?_append, hlt, hset]

theorem childrenOf_extendArena_ne {ns : List ACNode} {i k : Nat} {c : Char}
    (hne : k ≠ i) : childrenOf (extendArena ns i c) k = childrenOf ns k := by
  by_cases hk : k < ns.length
  · have : k < (setNode ns i (fun nd => { nd with children := nd.children ++ [(c, ns.length)] })).length := by
      rw [length_setNode]; exact hk
    simp [extendArena, childrenOf, List.getElem?_append, this,
      getElem?_setNode_ne ns _ (Ne.symm hne)]
  · rcases eq_or_ne k ns.length with rfl | hne2
    · rw [childrenOf_oob (le_refl ns.length)]
      have : (setNode ns i (fun nd => { nd with children := nd.children ++ [(c, ns.length)] })).length ≤ ns.length := by
        simp [length_setNode]
      simp [extendArena, childrenOf, List.getElem?_append_right this, ACNode.init]
    · rw [childrenOf_oob (Nat.le_of_not_lt hk)]
      apply childrenOf_oob
      rw [extendArena_length]
      omega

theorem childrenOf_extendArena_fresh {ns : List ACNode} {i : Nat} {c : Char}
    (hi : i < ns.length) :
    childrenOf (extendArena ns i c) ns.length = [] := by
  rw [childrenOf_extendArena_ne (by omega)]
  exact childrenOf_oob (le_refl _)

theorem outOf_extendArena (ns : List ACNode) (i : Nat) (c : Char) (k : Nat) :
    outOf (extendArena ns i c) k = outOf ns k := by
  by_cases hk : k < ns.length
  · have hlt : k < (setNode ns i (fun nd => { nd with children := nd.children ++ [(c, ns.length)] })).length := by
      rw [length_setNode]; exact hk
    rcases eq_or_ne k i with rfl | hne
    · simp [extendArena, outOf, List.getElem?_append, hlt, getElem?_setNode_self ns _ hk]
    · simp [extendArena, outOf, List.getElem?_append, hlt, getElem?_setNode_ne ns _ (Ne.symm hne)]
  · rw [outOf_oob (Nat.le_of_not_lt hk)]
    rcases eq_or_ne k ns.length with rfl | hne2
    · have : (setNode ns i (fun nd => { nd with children := nd.children ++ [(c, ns.length)] })).length ≤ ns.length := by
        simp [length_setNode]
      simp [extendArena, outOf, List.getElem?_append_right this, ACNode.init]
    · apply outOf_oob
      rw [extendArena_length]
      omega

theorem failOf_extendArena (ns : List ACNode) (i : Nat) (c : Char) (k : Nat) :
    failOf (extendArena ns i c) k = failOf ns k := by
  by_cases hk : k < ns.length
  · have hlt : k < (setNode ns i (fun nd => { nd with children := nd.children ++ [(c, ns.length)] })).length := by
      rw [length_setNode]; exact hk
    rcases eq_or_ne k i with rfl | hne
    · simp [extendArena, failOf, List.getElem?_append, hlt, getElem?_setNode_self ns _ hk]
    · simp [extendArena, failOf, List.getElem?_append, hlt, getElem?_setNode_ne ns _ (Ne.symm hne)]
  · rw [failOf_oob (Nat.le_of_not_lt hk)]
    rcases eq_or_ne k ns.length with rfl | hne2
    · have : (setNode ns i (fun nd => { nd with children := nd.children ++ [(c, ns.length)] })).length ≤ ns.length := by
        simp [length_setNode]
      simp [extendArena, failOf, List.getElem?_append_right this, ACNode.init]
    · apply failOf_oob
      rw [extendArena_length]
      omega

theorem endOf_extendArena (ns : List ACNode) (i : Nat) (c : Char) (k : Nat) :
    endOf (extendArena ns i c) k = endOf ns k := by
  by_cases hk : k < ns.length
  · have hlt : k < (setNode ns i (fun nd => { nd with children := nd.children ++ [(c, ns.length)] })).length := by
      rw [length_setNode]; exact hk
    rcases eq_or_ne k i with rfl | hne
    · simp [extendArena, endOf, List.getElem?_append, hlt, getElem?_setNode_self ns _ hk]
    · simp [extendArena, endOf, List.getElem?_append, hlt, getElem?_setNode_ne ns _ (Ne.symm hne)]
  · rw [endOf_oob (Nat.le_of_not_lt hk)]
    rcases eq_or_ne k ns.length with rfl | hne2
    · have : (setNode ns i (fun nd => { nd with children := nd.children ++ [(c, ns.length)] })).length ≤ ns.length := by
        simp [length_setNode]
      simp [extendArena, endOf, List.getElem?_append_right this, ACNode.init]
    · apply endOf_oob
      rw [extendArena_length]
      omega

theorem lookupChild_none_find? {ns : List ACNode} {i : Nat} {c : Char}
    (hc : lookupChild ns i c = none) :
    (childrenOf ns i).find? (fun e => e.1 == c) = none := by
  unfold lookupChild at hc
  cases hf : (childrenOf ns i).find? (fun e => e.1 == c) with
  | none => rfl
  | some e => rw [hf] at hc; simp at hc

theorem lookupChild_extendArena {ns : List ACNode} {i : Nat} {c : Char}
    (hi : i < ns.length) (hc : lookupChild ns i c = none) (a : Nat) (d : Char) :
    lookupChild (extendArena ns i c) a d =
      if a = i then
        (if d = c then some ns.length else lookupChild ns a d)
      else lookupChild ns a d := by
  by_cases hai : a = i
  · subst hai
    by_cases hdc : d = c
    · subst hdc
      rw [if_pos rfl, if_pos rfl]
      unfold lookupChild
      rw [childrenOf_extendArena_self d hi, List.find?_append, lookupChild_none_find? hc]
      simp [List.find?_cons]
    · rw [if_pos rfl, if_neg hdc]
      unfold lookupChild
      rw [childrenOf_extendArena_self c hi, List.find?_append]
      have : ([(c, ns.length)].find? (fun e => e.1 == d)) = none := by
        have : (c == d) = false := by
          simp only [beq_eq_false_iff_ne]
          exact fun h => hdc (h.symm)
        simp [List.find?_cons, this]
      rw [this]
      simp
  · rw [if_neg hai]
    unfold lookupChild
    rw [childrenOf_extendArena_ne hai]

theorem ArenaWF_extendArena {ns : List ACNode} {i : Nat} {c : Char}
    (hwf : ArenaWF ns) (hi : i < ns.length) (hc : lookupChild ns i c = none) :
    ArenaWF (extendArena ns i c) := by
  constructor
  · rw [extendArena_length]; omega
  · intro a e he
    rw [extendArena_length]
    by_cases hai : a = i
    · subst hai
      rw [childrenOf_extendArena_self c hi] at he
      rcases List.mem_append.1 he with he | he
      · have := hwf.childLt a e he
        omega
      · simp only [List.mem_singleton] at he
        subst he
        simp only
        omega
    · rw [childrenOf_extendArena_ne hai] at he
      have := hwf.childLt a e he
      omega
  · intro a
    by_cases hai : a = i
    · subst hai
      rw [childrenOf_extendArena_self c hi]
      rw [List.map_append]
      have hperm : ((childrenOf ns a).map Prod.fst ++ [(c, ns.length)].map Prod.fst).Perm
          (c :: (childrenOf ns a).map Prod.fst) := by
        simpa using List.perm_append_singleton c ((childrenOf ns a).map Prod.fst)
      rw [hperm.nodup_iff, List.nodup_cons]
      refine ⟨?_, hwf.keysNodup a⟩
      intro hmem
      obtain ⟨e, he, hfst⟩ := List.mem_map.1 hmem
      have : (e.1 == c) = true := by simp [hfst]
      have hfind := List.find?_eq_none.1 (lookupChild_none_find? hc) e he
      exact hfind this
    · rw [childrenOf_extendArena_ne hai]
      exact hwf.keysNodup a

theorem walkFrom_children_nil {ns : List ACNode} {j : Nat}
    (h : childrenOf ns j = []) (s : List Char) (k : Nat) :
    walkFrom ns j s = some k ↔ s = [] ∧ k = j := by
  cases s with
  | nil => simp [walkFrom, eq_comm]
  | cons d s' =>
    have : lookupChild ns j d = none := by
      unfold lookupChild
      rw [h]
      rfl
    simp [walkFrom, this]

theorem walkFrom_extendArena {ns : List ACNode} {i : Nat} {c : Char}
    (hwf : ArenaWF ns) (hi : i < ns.length) (hc : lookupChild ns i c = none) :
    ∀ (s : List Char) (a k : Nat), a < ns.length →
      (walkFrom (extendArena ns i c) a s = some k ↔
        walkFrom ns a s = some k ∨
          (∃ u, s = u ++ [c] ∧ walkFrom ns a u = some i ∧ k = ns.length)) := by
  intro s
  induction s with
  | nil =>
    intro a k ha
    simp only [walkFrom, Option.some_inj]
    constructor
    · exact Or.inl
    · rintro (h | ⟨u, hu, -, -⟩)
      · exact h
      · exact absurd hu (by simp)
  | cons d s' ih =>
    intro a k ha
    by_cases hadc : a = i ∧ d = c
    · obtain ⟨rfl, rfl⟩ := hadc
      have hstep : walkFrom (extendArena ns a d) a (d :: s')
          = walkFrom (extendArena ns a d) ns.length s' := by
        simp [walkFrom, lookupChild_extendArena hi hc]
      rw [hstep, walkFrom_children_nil (childrenOf_extendArena_fresh hi) s' k]
      have hold : walkFrom ns a (d :: s') = none := by
        simp [walkFrom, hc]
      rw [hold]
      constructor
      · rintro ⟨rfl, rfl⟩
        exact Or.inr ⟨[], by simp, rfl, rfl⟩
      · rintro (h | ⟨u, hu, hwalk, rfl⟩)
        · simp at h
        · cases u with
          | nil =>
            simp only [List.nil_append, List.cons_eq_cons] at hu
            exact ⟨hu.2, rfl⟩
          | cons d' u' =>
            simp only [List.cons_append, List.cons_eq_cons] at hu
            obtain ⟨rfl, -⟩ := hu
            rw [walkFrom] at hwalk
            rw [hc] at hwalk
            simp at hwalk
    · have hlk : lookupChild (extendArena ns i c) a d = lookupChild ns a d := by
        rw [lookupChild_extendArena hi hc a d]
        by_cases hai : a = i
        · subst hai
          have hdc : d ≠ c := fun h => hadc ⟨rfl, h⟩
          rw [if_pos rfl, if_neg hdc]
        · rw [if_neg hai]
      cases hl : lookupChild ns a d with
      | some j =>
        have hj := hwf.childLt a _ (lookupChild_mem hl)
        have hrec := ih j k hj.1
        have hLHS : walkFrom (extendArena ns i c) a (d :: s')
            = walkFrom (extendArena ns i c) j s' := by
          simp only [walkFrom, hlk, hl]
        have hRHS : walkFrom ns a (d :: s') = walkFrom ns j s' := by
          simp only [walkFrom, hl]
        rw [hLHS, hRHS, hrec]
        constructor
        · rintro (h | ⟨u', hu', hwalk, rfl⟩)
          · exact Or.inl h
          · exact Or.inr ⟨d :: u', by simp [hu'], by simpa [walkFrom, hl] using hwalk, rfl⟩
        · rintro (h | ⟨u, hu, hwalk, rfl⟩)
          · exact Or.inl h
          · cases u with
            | nil =>
              simp only [List.nil_append, List.cons_eq_cons] at hu
              obtain ⟨rfl, -⟩ := hu
              simp only [walkFrom, Option.some_inj] at hwalk
              exact absurd ⟨hwalk, rfl⟩ hadc
            | cons d' u' =>
              simp only [List.cons_append, List.cons_eq_cons] at hu
              obtain ⟨rfl, hu'⟩ := hu
              rw [walkFrom] at hwalk
              rw [hl] at hwalk
              exact Or.inr ⟨u', hu', hwalk, rfl⟩
      | none =>
        have hLHS : walkFrom (extendArena ns i c) a (d :: s') = none := by
          simp [walkFrom, hlk, hl]
        have hRHS : walkFrom ns a (d :: s') = none := by
          simp [walkFrom, hl]
        rw [hLHS, hRHS]
        constructor
        · intro h; simp at h
        · rintro (h | ⟨u, hu, hwalk, rfl⟩)
          · simp at h
          · cases u with
            | nil =>
              simp only [List.nil_append, List.cons_eq_cons] at hu
              obtain ⟨rfl, -⟩ := hu
              simp only [walkFrom, Option.some_inj] at hwalk
              exact absurd ⟨hwalk, rfl⟩ hadc
            | cons d' u' =>
              simp only [List.cons_append, List.cons_eq_cons] at hu
              obtain ⟨rfl, -⟩ := hu
              rw [walkFrom] at hwalk
              rw [hl] at hwalk
              simp at hwalk

theorem addChars_none_eq {ns : List ACNode} {i : Nat} {c : Char} {cs : List Char}
    (hl : lookupChild ns i c = none) :
    addChars ns i (c :: cs) = addChars (extendArena ns i c) ns.length cs := by
  simp only [addChars, hl]
  rfl

theorem addChars_some_eq {ns : List ACNode} {i j : Nat} {c : Char} {cs : List Char}
    (hl : lookupChild ns i c = some j) :
    addChars ns i (c :: cs) = addChars ns j cs := by
  simp only [addChars, hl]

theorem addChars_fields {ns : List ACNode} (hwf : ArenaWF ns) {i : Nat}
    (hi : i < ns.length) (cs : List Char) :
    ArenaWF (addChars ns i cs).1 ∧ ns.length ≤ (addChars ns i cs).1.length ∧
    (∀ k, outOf (addChars ns i cs).1 k = outOf ns k) ∧
    (∀ k, failOf (addChars ns i cs).1 k = failOf ns k) ∧
    (∀ k, endOf (addChars ns i cs).1 k = endOf ns k) := by
  induction cs generalizing ns i with
  | nil => exact ⟨hwf, le_refl _, fun k => rfl, fun k => rfl, fun k => rfl⟩
  | cons c cs ih =>
    cases hl : lookupChild ns i c with
    | some j =>
      rw [addChars_some_eq hl]
      have hj := hwf.childLt i _ (lookupChild_mem hl)
      exact ih hwf hj.1
    | none =>
      rw [addChars_none_eq hl]
      have hwf' := ArenaWF_extendArena hwf hi hl
      have hi' : ns.length < (extendArena ns i c).length := by
        rw [extendArena_length]; omega
      obtain ⟨h1, h2, h3, h4, h5⟩ := ih hwf' hi'
      refine ⟨h1, ?_, ?_, ?_, ?_⟩
      · rw [extendArena_length] at h2; omega
      · intro k; rw [h3 k, outOf_extendArena]
      · intro k; rw [h4 k, failOf_extendArena]
      · intro k; rw [h5 k, endOf_extendArena]

theorem addChars_walk_mono {ns : List ACNode} (hwf : ArenaWF ns) {i : Nat}
    (hi : i < ns.length) (cs : List Char) {s : List Char} {k : Nat}
    (h : walkFrom ns 0 s = some k) : walkFrom (addChars ns i cs).1 0 s = some k := by
  induction cs generalizing ns i with
  | nil => exact h
  | cons c cs ih =>
    cases hl : lookupChild ns i c with
    | some j =>
      rw [addChars_some_eq hl]
      have hj := hwf.childLt i _ (lookupChild_mem hl)
      exact ih hwf hj.1 h
    | none =>
      rw [addChars_none_eq hl]
      have hwf' := ArenaWF_extendArena hwf hi hl
      have hi' : ns.length < (extendArena ns i c).length := by
        rw [extendArena_length]; omega
      refine ih hwf' hi' ?_
      exact (walkFrom_extendArena hwf hi hl s 0 k hwf.root_lt).2 (Or.inl h)

theorem inj_extendArena {ns : List ACNode} (hwf : ArenaWF ns)
    (hinj : ∀ s t k, walkFrom ns 0 s = some k → walkFrom ns 0 t = some k → s = t)
    {i : Nat} {c : Char} (hi : i < ns.length) (hc : lookupChild ns i c = none) :
    ∀ s t k, walkFrom (extendArena ns i c) 0 s = some k →
      walkFrom (extendArena ns i c) 0 t = some k → s = t := by
  intro s t k hs ht
  rcases (walkFrom_extendArena hwf hi hc s 0 k hwf.root_lt).1 hs with hs' | ⟨u, rfl, hu, rfl⟩
  · rcases (walkFrom_extendArena hwf hi hc t 0 k hwf.root_lt).1 ht with ht' | ⟨v, rfl, hv, rfl⟩
    · exact hinj s t k hs' ht'
    · have := (walkFrom_bounds hwf hs' hwf.root_lt).1
      omega
  · rcases (walkFrom_extendArena hwf hi hc t 0 ns.length hwf.root_lt).1 ht with ht' | ⟨v, rfl, hv, -⟩
    · have := (walkFrom_bounds hwf ht' hwf.root_lt).1
      omega
    · rw [hinj u v i hu hv]

theorem surj_extendArena {ns : List ACNode} (hwf : ArenaWF ns)
    (hsurj : ∀ k, k < ns.length → ∃ s, walkFrom ns 0 s = some k)
    {i : Nat} {c : Char} {t : List Char} (hi : i < ns.length)
    (hc : lookupChild ns i c = none) (ht : walkFrom ns 0 t = some i) :
    ∀ k, k < (extendArena ns i c).length →
      ∃ s, walkFrom (extendArena ns i c) 0 s = some k := by
  intro k hk
  rw [extendArena_length] at hk
  rcases Nat.lt_or_ge k ns.length with hk' | hk'
  · obtain ⟨s, hs⟩ := hsurj k hk'
    exact ⟨s, (walkFrom_extendArena hwf hi hc s 0 k hwf.root_lt).2 (Or.inl hs)⟩
  · have : k = ns.length := by omega
    subst this
    exact ⟨t ++ [c], (walkFrom_extendArena hwf hi hc _ 0 _ hwf.root_lt).2
      (Or.inr ⟨t, rfl, ht, rfl⟩)⟩

theorem addChars_walk_rev {ns : List ACNode} (hwf : ArenaWF ns)
    (hinj : ∀ s t k, walkFrom ns 0 s = some k → walkFrom ns 0 t = some k → s = t)
    {i : Nat} {t : List Char} (ht : walkFrom ns 0 t = some i) (cs : List Char) :
    ∀ s k, walkFrom (addChars ns i cs).1 0 s = some k →
      walkFrom ns 0 s = some k ∨
        ((∃ u, u ≠ [] ∧ u <+: cs ∧ s = t ++ u) ∧ ns.length ≤ k) := by
  have hi : i < ns.length := (walkFrom_bounds hwf ht hwf.root_lt).1
  induction cs generalizing ns i t with
  | nil => exact fun s k h => Or.inl h
  | cons c cs ih =>
    intro s k h
    cases hl : lookupChild ns i c with
    | some j =>
      rw [addChars_some_eq hl] at h
      have ht' : walkFrom ns 0 (t ++ [c]) = some j := by
        rw [walkFrom_append, ht]
        simp [walkFrom, hl]
      rcases ih hwf hinj ht' (walkFrom_bounds hwf ht' hwf.root_lt).1 s k h with h' | ⟨⟨u, hne, hu, rfl⟩, hk⟩
      · exact Or.inl h'
      · refine Or.inr ⟨⟨c :: u, by simp, ?_, by simp⟩, hk⟩
        exact (List.cons_prefix_cons).2 ⟨rfl, hu⟩
    | none =>
      rw [addChars_none_eq hl] at h
      have hwf' := ArenaWF_extendArena hwf hi hl
      have hinj' := inj_extendArena hwf hinj hi hl
      have ht' : walkFrom (extendArena ns i c) 0 (t ++ [c]) = some ns.length :=
        (walkFrom_extendArena hwf hi hl _ 0 _ hwf.root_lt).2 (Or.inr ⟨t, rfl, ht, rfl⟩)
      have hi' : ns.length < (extendArena ns i c).length := by
        rw [extendArena_length]; omega
      rcases ih hwf' hinj' ht' hi' s k h with h' | ⟨⟨u, hne, hu, rfl⟩, hk⟩
      · rcases (walkFrom_extendArena hwf hi hl s 0 k hwf.root_lt).1 h' with h'' | ⟨u, rfl, hu, rfl⟩
        · exact Or.inl h''
        · have : u = t := hinj u t i hu ht
          subst this
          exact Or.inr ⟨⟨[c], by simp, by simp, rfl⟩, le_refl _⟩
      · rw [extendArena_length] at hk
        refine Or.inr ⟨⟨c :: u, by simp, ?_, by simp⟩, by omega⟩
        exact (List.cons_prefix_cons).2 ⟨rfl, hu⟩

theorem addChars_walk_last {ns : List ACNode} (hwf : ArenaWF ns)
    {i : Nat} {t : List Char} (ht : walkFrom ns 0 t = some i) (cs : List Char) :
    walkFrom (addChars ns i cs).1 0 (t ++ cs) = some (addChars ns i cs).2 := by
  have hi : i < ns.length := (walkFrom_bounds hwf ht hwf.root_lt).1
  induction cs generalizing ns i t with
  | nil => simpa using ht
  | cons c cs ih =>
    cases hl : lookupChild ns i c with
    | some j =>
      rw [addChars_some_eq hl]
      have ht' : walkFrom ns 0 (t ++ [c]) = some j := by
        rw [walkFrom_append, ht]
        simp [walkFrom, hl]
      have := ih hwf ht' (walkFrom_bounds hwf ht' hwf.root_lt).1
      simpa [List.append_assoc] using this
    | none =>
      rw [addChars_none_eq hl]
      have hwf' := ArenaWF_extendArena hwf hi hl
      have ht' : walkFrom (extendArena ns i c) 0 (t ++ [c]) = some ns.length :=
        (walkFrom_extendArena hwf hi hl _ 0 _ hwf.root_lt).2 (Or.inr ⟨t, rfl, ht, rfl⟩)
      have hi' : ns.length < (extendArena ns i c).length := by
        rw [extendArena_length]; omega
      have := ih hwf' ht' hi'
      simpa [List.append_assoc] using this

theorem addChars_walk_reach {ns : List ACNode} (hwf : ArenaWF ns)
    {i : Nat} {t : List Char} (ht : walkFrom ns 0 t = some i) (cs : List Char) :
    ∀ u, u <+: cs → (walkFrom (addChars ns i cs).1 0 (t ++ u)).isSome = true := by
  have hi : i < ns.length := (walkFrom_bounds hwf ht hwf.root_lt).1
  induction cs generalizing ns i t with
  | nil =>
    intro u hu
    rw [List.prefix_nil.1 hu]
    simp only [addChars, List.append_nil, ht, Option.isSome_some]
  | cons c cs ih =>
    intro u hu
    cases hl : lookupChild ns i c with
    | some j =>
      rw [addChars_some_eq hl]
      cases u with
      | nil =>
        rw [List.append_nil]
        rw [addChars_walk_mono hwf (hwf.childLt i _ (lookupChild_mem hl)).1 cs ht]
        rfl
      | cons d u' =>
        obtain ⟨rfl, hu'⟩ := (List.cons_prefix_cons).1 hu
        have ht' : walkFrom ns 0 (t ++ [d]) = some j := by
          rw [walkFrom_append, ht]
          simp [walkFrom, hl]
        have := ih hwf ht' (walkFrom_bounds hwf ht' hwf.root_lt).1 u' hu'
        simpa [List.append_assoc] using this
    | none =>
      rw [addChars_none_eq hl]
      have hwf' := ArenaWF_extendArena hwf hi hl
      have ht'' : walkFrom (extendArena ns i c) 0 t = some i :=
        (walkFrom_extendArena hwf hi hl t 0 i hwf.root_lt).2 (Or.inl ht)
      have ht' : walkFrom (extendArena ns i c) 0 (t ++ [c]) = some ns.length :=
        (walkFrom_extendArena hwf hi hl _ 0 _ hwf.root_lt).2 (Or.inr ⟨t, rfl, ht, rfl⟩)
      have hi' : ns.length < (extendArena ns i c).length := by
        rw [extendArena_length]; omega
      cases u with
      | nil =>
        rw [List.append_nil]
        rw [addChars_walk_mono hwf' hi' cs ht'']
        rfl
      | cons d u' =>
        obtain ⟨rfl, hu'⟩ := (List.cons_prefix_cons).1 hu
        have := ih hwf' ht' hi' u' hu'
        simpa [List.append_assoc] using this

theorem addChars_inj {ns : List ACNode} (hwf : ArenaWF ns)
    (hinj : ∀ s t k, walkFrom ns 0 s = some k → walkFrom ns 0 t = some k → s = t)
    {i : Nat} (hi : i < ns.length) (cs : List Char) :
    ∀ s t k, walkFrom (addChars ns i cs).1 0 s = some k →
      walkFrom (addChars ns i cs).1 0 t = some k → s = t := by
  induction cs generalizing ns i with
  | nil => exact hinj
  | cons c cs ih =>
    cases hl : lookupChild ns i c with
    | some j =>
      rw [addChars_some_eq hl]
      exact ih hwf hinj (hwf.childLt i _ (lookupChild_mem hl)).1
    | none =>
      rw [addChars_none_eq hl]
      have hwf' := ArenaWF_extendArena hwf hi hl
      have hinj' := inj_extendArena hwf hinj hi hl
      have hi' : ns.length < (extendArena ns i c).length := by
        rw [extendArena_length]; omega
      exact ih hwf' hinj' hi'

theorem addChars_surj {ns : List ACNode} (hwf : ArenaWF ns)
    (hsurj : ∀ k, k < ns.length → ∃ s, walkFrom ns 0 s = some k)
    {i : Nat} {t : List Char} (ht : walkFrom ns 0 t = some i) (cs : List Char) :
    ∀ k, k < (addChars ns i cs).1.length →
      ∃ s, walkFrom (addChars ns i cs).1 0 s = some k := by
  have hi : i < ns.length := (walkFrom_bounds hwf ht hwf.root_lt).1
  induction cs generalizing ns i t with
  | nil => exact hsurj
  | cons c cs ih =>
    cases hl : lookupChild ns i c with
    | some j =>
      rw [addChars_some_eq hl]
      have ht' : walkFrom ns 0 (t ++ [c]) = some j := by
        rw [walkFrom_append, ht]
        simp [walkFrom, hl]
      exact ih hwf hsurj ht' (walkFrom_bounds hwf ht' hwf.root_lt).1
    | none =>
      rw [addChars_none_eq hl]
      have hwf' := ArenaWF_extendArena hwf hi hl
      have hsurj' := surj_extendArena hwf hsurj hi hl ht
      have ht' : walkFrom (extendArena ns i c) 0 (t ++ [c]) = some ns.length :=
        (walkFrom_extendArena hwf hi hl _ 0 _ hwf.root_lt).2 (Or.inr ⟨t, rfl, ht, rfl⟩)
      have hi' : ns.length < (extendArena ns i c).length := by
        rw [extendArena_length]; omega
      exact ih hwf' hsurj' ht' hi'

theorem walkFrom_congr {ns1 ns2 : List ACNode}
    (h : ∀ k, childrenOf ns1 k = childrenOf ns2 k) (a : Nat) (s : List Char) :
    walkFrom ns1 a s = walkFrom ns2 a s := by
  induction s generalizing a with
  | nil => rfl
  | cons c s ih =>
    have hl : lookupChild ns1 a c = lookupChild ns2 a c := by
      unfold lookupChild
      rw [h a]
    simp only [walkFrom, hl]
    cases lookupChild ns2 a c with
    | some j => exact ih j
    | none => rfl

theorem ArenaWF_congr {ns1 ns2 : List ACNode} (hlen : ns1.length = ns2.length)
    (h : ∀ k, childrenOf ns1 k = childrenOf ns2 k) (hwf : ArenaWF ns1) :
    ArenaWF ns2 := by
  constructor
  · have := hwf.root_lt
    omega
  · intro i e he
    rw [← h i] at he
    have := hwf.childLt i e he
    omega
  · intro i
    rw [← h i]
    exact hwf.keysNodup i

theorem childrenOf_setNode_of_children_eq (ns : List ACNode) (i : Nat)
    (f : ACNode → ACNode) (h : ∀ nd, (f nd).children = nd.children) (j : Nat) :
    childrenOf (setNode ns i f) j = childrenOf ns j := by
  rcases eq_or_ne i j with rfl | hne
  · by_cases hlt : i < ns.length
    · simp [childrenOf, getElem?_setNode_self ns f hlt, h]
    · simp [childrenOf, setNode, List.getElem?_set, hlt,
        List.getElem?_eq_none_iff.2 (Nat.le_of_not_lt hlt)]
  · simp [childrenOf, getElem?_setNode_ne ns f hne]

theorem failOf_setNode_of_failure_eq (ns : List ACNode) (i : Nat)
    (f : ACNode → ACNode) (h : ∀ nd, (f nd).failure_link = nd.failure_link) (j : Nat) :
    failOf (setNode ns i f) j = failOf ns j := by
  rcases eq_or_ne i j with rfl | hne
  · by_cases hlt : i < ns.length
    · simp [failOf, getElem?_setNode_self ns f hlt, h]
    · simp [failOf, setNode, List.getElem?_set, hlt,
        List.getElem?_eq_none_iff.2 (Nat.le_of_not_lt hlt)]
  · simp [failOf, getElem?_setNode_ne ns f hne]

theorem outOf_setNode_self {ns : List ACNode} {k : Nat} (f : ACNode → ACNode)
    (hk : k < ns.length) :
    outOf (setNode ns k f) k = (f ((ns[k]?).getD ACNode.init)).output := by
  simp [outOf, getElem?_setNode_self ns f hk]

theorem endOf_setNode_self {ns : List ACNode} {k : Nat} (f : ACNode → ACNode)
    (hk : k < ns.length) :
    endOf (setNode ns k f) k = (f ((ns[k]?).getD ACNode.init)).is_end_of_pattern := by
  simp [endOf, getElem?_setNode_self ns f hk]

theorem outOf_setNode_ne (ns : List ACNode) {i j : Nat} (f : ACNode → ACNode)
    (hne : i ≠ j) : outOf (setNode ns i f) j = outOf ns j := by
  simp [outOf, getElem?_setNode_ne ns f hne]

theorem endOf_setNode_ne (ns : List ACNode) {i j : Nat} (f : ACNode → ACNode)
    (hne : i ≠ j) : endOf (setNode ns i f) j = endOf ns j := by
  simp [endOf, getElem?_setNode_ne ns f hne]

/-! ## Label-set and identifier-set lemmas -/

theorem isLabelOf_iff {ps : List String} {s : List Char} :
    isLabelOf ps s = true ↔ s = [] ∨ ∃ p ∈ ps, s <+: p.data := by
  simp [isLabelOf, List.any_eq_true, List.isPrefixOf_iff_prefix, List.isEmpty_iff]

theorem isLabelOf_append {ps : List String} {p : String} {s : List Char} :
    isLabelOf (ps ++ [p]) s = true ↔ (isLabelOf ps s = true ∨ s <+: p.data) := by
  rw [isLabelOf_iff, isLabelOf_iff]
  constructor
  · rintro (rfl | ⟨q, hq, hpre⟩)
    · exact Or.inl (Or.inl rfl)
    · rcases List.mem_append.1 hq with hq | hq
      · exact Or.inl (Or.inr ⟨q, hq, hpre⟩)
      · simp only [List.mem_singleton] at hq
        subst hq
        exact Or.inr hpre
  · rintro ((rfl | ⟨q, hq, hpre⟩) | hpre)
    · exact Or.inl rfl
    · exact Or.inr ⟨q, List.mem_append.2 (Or.inl hq), hpre⟩
    · exact Or.inr ⟨p, List.mem_append.2 (Or.inr (by simp)), hpre⟩

theorem mem_idsEqualTo {pats : List String} {s : List Char} {j : Nat} :
    j ∈ idsEqualTo pats s ↔ j < pats.length ∧ ((pats[j]?).getD "").data = s := by
  simp [idsEqualTo, List.mem_filter, List.mem_range]

theorem idsEqualTo_append {pats : List String} {p : String} {s : List Char} :
    idsEqualTo (pats ++ [p]) s =
      idsEqualTo pats s ++ (if p.data = s then [pats.length] else []) := by
  unfold idsEqualTo
  rw [List.length_append, List.length_singleton, List.range_succ, List.filter_append]
  congr 1
  · apply List.filter_congr
    intro j hj
    rw [List.mem_range] at hj
    rw [List.getElem?_append, if_pos hj]
  · have hp : (pats ++ [p])[pats.length]? = some p := by
      rw [List.getElem?_append_right (le_refl _)]
      simp
    by_cases hcase : p.data = s
    · simp [hp, hcase]
    · simp [hp, hcase]

theorem exists_of_mem_idsEqualTo {pats : List String} {s : List Char} {j : Nat}
    (h : j ∈ idsEqualTo pats s) : ∃ q ∈ pats, q.data = s := by
  rw [mem_idsEqualTo] at h
  obtain ⟨hj, hdata⟩ := h
  refine ⟨(pats[j]?).getD "", ?_, hdata⟩
  rw [List.getElem?_eq_getElem hj]
  exact List.getElem_mem hj

theorem idsEqualTo_eq_nil {pats : List String} {s : List Char}
    (h : ∀ q ∈ pats, q.data ≠ s) : idsEqualTo pats s = [] := by
  cases hc : idsEqualTo pats s with
  | nil => rfl
  | cons j js =>
    exfalso
    have : j ∈ idsEqualTo pats s := by rw [hc]; exact List.mem_cons_self j js
    obtain ⟨q, hq, hdata⟩ := exists_of_mem_idsEqualTo this
    exact h q hq hdata

theorem isLabelOf_nil (ps : List String) : isLabelOf ps [] = true := by
  simp [isLabelOf]

theorem isLabelOf_append_emptyPat {ps : List String} {p : String} (hp : p.data = [])
    (s : List Char) : isLabelOf (ps ++ [p]) s = isLabelOf ps s := by
  cases hb : isLabelOf ps s with
  | true => exact isLabelOf_append.2 (Or.inl hb)
  | false =>
    cases hb2 : isLabelOf (ps ++ [p]) s with
    | false => rfl
    | true =>
      exfalso
      rcases isLabelOf_append.1 hb2 with hh | hh
      · exact absurd hh (by simp [hb])
      · rw [hp] at hh
        rw [List.prefix_nil.1 hh, isLabelOf_nil] at hb
        exact absurd hb (by simp)

theorem trieSpec_add_pattern {ps : List String} {ac : AhoCorasick}
    (h : TrieSpec ps ac) (p : String) : TrieSpec (ps ++ [p]) (ac.add_pattern p) := by
  by_cases hp : p.data = []
  · rw [AhoCorasick.add_pattern, if_pos hp]
    refine ⟨h.wf, ?_, ?_, h.inj, h.surj, h.out_spec, h.end_spec, h.fail0⟩
    · rw [h.pats, List.filter_append]
      simp [hp]
    · intro s
      rw [isLabelOf_append_emptyPat hp s]
      exact h.dom s
  · have hroot0 : walkFrom ac.nodes 0 [] = some 0 := rfl
    obtain ⟨hwf1, hlen1, hout1, hfail1, hend1⟩ := addChars_fields h.wf h.wf.root_lt p.data
    have hlast : walkFrom (addChars ac.nodes 0 p.data).1 0 p.data
        = some (addChars ac.nodes 0 p.data).2 := by
      have := addChars_walk_last h.wf hroot0 p.data
      simpa using this
    have hr2lt : (addChars ac.nodes 0 p.data).2 < (addChars ac.nodes 0 p.data).1.length :=
      (walkFrom_bounds hwf1 hlast hwf1.root_lt).1
    set r := addChars ac.nodes 0 p.data with hrdef
    have hacp : ac.add_pattern p = ⟨setNode r.1 r.2 (fun nd =>
        { nd with is_end_of_pattern := true, output := nd.output ++ [ac.patterns.length] }),
        ac.patterns ++ [p]⟩ := by
      unfold AhoCorasick.add_pattern
      rw [if_neg hp]
    rw [hacp]
    set ns2 := setNode r.1 r.2 (fun nd =>
      { nd with is_end_of_pattern := true, output := nd.output ++ [ac.patterns.length] }) with hns2def
    have hch2 : ∀ k, childrenOf ns2 k = childrenOf r.1 k :=
      childrenOf_setNode_of_children_eq r.1 r.2 _ (fun nd => rfl)
    have hwalk2 : ∀ a s, walkFrom ns2 a s = walkFrom r.1 a s :=
      fun a s => walkFrom_congr hch2 a s
    have hlen2 : ns2.length = r.1.length := length_setNode r.1 r.2 _
    have hfail2 : ∀ k, failOf ns2 k = failOf r.1 k :=
      failOf_setNode_of_failure_eq r.1 r.2 _ (fun nd => rfl)
    have hout2self : outOf ns2 r.2 = outOf r.1 r.2 ++ [ac.patterns.length] :=
      outOf_setNode_self _ hr2lt
    have hend2self : endOf ns2 r.2 = true :=
      endOf_setNode_self _ hr2lt
    have hnilids : ∀ s k, walkFrom r.1 0 s = some k → ac.nodes.length ≤ k →
        idsEqualTo ac.patterns s = [] := by
      intro s k hk hge
      apply idsEqualTo_eq_nil
      intro q hq hqd
      rw [h.pats] at hq
      have hqps := (List.mem_filter.1 hq).1
      have hlab : isLabelOf ps s = true :=
        isLabelOf_iff.2 (Or.inr ⟨q, hqps, by rw [hqd]⟩)
      rw [← h.dom s] at hlab
      obtain ⟨k0, hk0⟩ := Option.isSome_iff_exists.1 hlab
      have hm := addChars_walk_mono h.wf h.wf.root_lt p.data hk0
      rw [← hrdef] at hm
      rw [hm] at hk
      have hb := (walkFrom_bounds h.wf hk0 h.wf.root_lt).1
      have : k0 = k := Option.some_inj.1 hk
      omega
    refine ⟨?_, ?_, ?_, ?_, ?_, ?_, ?_, ?_⟩
    · exact ArenaWF_congr hlen2.symm (fun k => (hch2 k).symm) hwf1
    · show ac.patterns ++ [p] = (ps ++ [p]).filter (fun q => !q.data.isEmpty)
      rw [List.filter_append, ← h.pats]
      have : (!p.data.isEmpty) = true := by
        simp [List.isEmpty_iff, hp]
      simp [this]
    · intro s
      show (walkFrom ns2 0 s).isSome = isLabelOf (ps ++ [p]) s
      rw [hwalk2 0 s]
      have hiff : (walkFrom r.1 0 s).isSome = true ↔ isLabelOf (ps ++ [p]) s = true := by
        rw [isLabelOf_append]
        constructor
        · intro hs
          obtain ⟨k, hk⟩ := Option.isSome_iff_exists.1 hs
          rcases addChars_walk_rev h.wf h.inj hroot0 p.data s k hk with h' | ⟨⟨u, hne, hu, hs'⟩, -⟩
          · left
            rw [← h.dom s, h']
            rfl
          · right
            rw [hs']
            simpa using hu
        · rintro (hs | hs)
          · rw [← h.dom s] at hs
            obtain ⟨k, hk⟩ := Option.isSome_iff_exists.1 hs
            rw [addChars_walk_mono h.wf h.wf.root_lt p.data hk]
            rfl
          · have := addChars_walk_reach h.wf hroot0 p.data s hs
            simpa using this
      cases hb : isLabelOf (ps ++ [p]) s with
      | true => exact hiff.2 hb
      | false =>
        cases hw : (walkFrom r.1 0 s).isSome with
        | false => rfl
        | true => exact absurd (hiff.1 hw) (by simp [hb])
    · intro s t k hs ht
      rw [hwalk2 0 s] at hs
      rw [hwalk2 0 t] at ht
      exact addChars_inj h.wf h.inj h.wf.root_lt p.data s t k hs ht
    · intro k hk
      rw [hlen2] at hk
      obtain ⟨s, hs⟩ := addChars_surj h.wf h.surj hroot0 p.data k hk
      exact ⟨s, by rw [hwalk2 0 s]; exact hs⟩
    · intro s k hk
      show outOf ns2 k = idsEqualTo (ac.patterns ++ [p]) s
      rw [hwalk2 0 s] at hk
      rw [idsEqualTo_append]
      rcases eq_or_ne k r.2 with rfl | hkne
      · have hs : s = p.data :=
          addChars_inj h.wf h.inj h.wf.root_lt p.data s p.data r.2 hk hlast
        subst hs
        rw [if_pos rfl, hout2self, hout1 r.2]
        congr 1
        cases hw : walkFrom ac.nodes 0 p.data with
        | some k0 =>
          have hm := addChars_walk_mono h.wf h.wf.root_lt p.data hw
          rw [← hrdef] at hm
          rw [hm] at hlast
          have hkk : k0 = r.2 := Option.some_inj.1 hlast
          subst hkk
          exact h.out_spec p.data _ hw
        | none =>
          rcases addChars_walk_rev h.wf h.inj hroot0 p.data p.data r.2 hk with h' | ⟨-, hge⟩
          · rw [h'] at hw
            exact absurd hw (by simp)
          · rw [outOf_oob hge]
            exact (hnilids p.data r.2 hk hge).symm
      · have hsne : p.data ≠ s := by
          intro hs
          rw [← hs] at hk
          rw [hk] at hlast
          exact hkne (Option.some_inj.1 hlast)
        rw [if_neg hsne, List.append_nil, outOf_setNode_ne r.1 _ (Ne.symm hkne), hout1 k]
        rcases addChars_walk_rev h.wf h.inj hroot0 p.data s k hk with h' | ⟨-, hge⟩
        · exact h.out_spec s k h'
        · rw [outOf_oob hge]
          exact (hnilids s k hk hge).symm
    · intro s k hk
      show endOf ns2 k = !(idsEqualTo (ac.patterns ++ [p]) s).isEmpty
      rw [hwalk2 0 s] at hk
      rw [idsEqualTo_append]
      rcases eq_or_ne k r.2 with rfl | hkne
      · have hs : s = p.data :=
          addChars_inj h.wf h.inj h.wf.root_lt p.data s p.data r.2 hk hlast
        subst hs
        rw [if_pos rfl, hend2self]
        simp
      · have hsne : p.data ≠ s := by
          intro hs
          rw [← hs] at hk
          rw [hk] at hlast
          exact hkne (Option.some_inj.1 hlast)
        rw [if_neg hsne, List.append_nil, endOf_setNode_ne r.1 _ (Ne.symm hkne), hend1 k]
        rcases addChars_walk_rev h.wf h.inj hroot0 p.data s k hk with h' | ⟨-, hge⟩
        · exact h.end_spec s k h'
        · rw [endOf_oob hge, hnilids s k hk hge]
          rfl
    · intro i
      show failOf ns2 i = 0
      rw [hfail2 i, hfail1 i]
      exact h.fail0 i

theorem trieSpec_init : TrieSpec [] AhoCorasick.init := by
  have hch0 : ∀ j, childrenOf AhoCorasick.init.nodes j = [] := by
    intro j
    rcases j with _ | j <;> simp [childrenOf, AhoCorasick.init, ACNode.init]
  have hwalk : ∀ s k, walkFrom AhoCorasick.init.nodes 0 s = some k ↔ s = [] ∧ k = 0 :=
    fun s k => walkFrom_children_nil (hch0 0) s k
  refine ⟨⟨?_, ?_, ?_⟩, rfl, ?_, ?_, ?_, ?_, ?_, ?_⟩
  · simp [AhoCorasick.init]
  · intro i e he
    rw [hch0 i] at he
    exact absurd he (List.not_mem_nil e)
  · intro i
    rw [hch0 i]
    exact List.nodup_nil
  · intro s
    cases s with
    | nil => rfl
    | cons c s' =>
      have : lookupChild AhoCorasick.init.nodes 0 c = none := by
        unfold lookupChild
        rw [hch0 0]
        rfl
      simp [walkFrom, this, isLabelOf]
  · intro s t k hs ht
    rw [hwalk s k] at hs
    rw [hwalk t k] at ht
    rw [hs.1, ht.1]
  · intro k hk
    have : k = 0 := by
      simp [AhoCorasick.init] at hk
      omega
    exact ⟨[], by rw [this]; rfl⟩
  · intro s k hk
    obtain ⟨rfl, rfl⟩ := (hwalk s k).1 hk
    simp [outOf, AhoCorasick.init, ACNode.init, idsEqualTo]
  · intro s k hk
    obtain ⟨rfl, rfl⟩ := (hwalk s k).1 hk
    simp [endOf, AhoCorasick.init, ACNode.init, idsEqualTo]
  · intro i
    rcases i with _ | i <;> simp [failOf, AhoCorasick.init, ACNode.init]

theorem trieSpec_foldl (ps : List String) {qs : List String} {ac : AhoCorasick}
    (h : TrieSpec qs ac) :
    TrieSpec (qs ++ ps) (ps.foldl AhoCorasick.add_pattern ac) := by
  induction ps generalizing qs ac with
  | nil => simpa using h
  | cons p ps ih =>
    have := ih (trieSpec_add_pattern h p)
    simpa [List.append_assoc] using this

theorem trieSpec_buildTrie (ps : List String) :
    TrieSpec ps (ps.foldl AhoCorasick.add_pattern AhoCorasick.init) := by
  simpa using trieSpec_foldl ps trieSpec_init

theorem addChars_walk_eq {ns : List ACNode} {i : Nat} {cs : List Char} {j : Nat}
    (h : walkFrom ns i cs = some j) : addChars ns i cs = (ns, j) := by
  induction cs generalizing i with
  | nil =>
    simp only [walkFrom, Option.some_inj] at h
    subst h
    rfl
  | cons c cs ih =>
    rw [walkFrom] at h
    cases hl : lookupChild ns i c with
    | some j' =>
      rw [hl] at h
      rw [addChars_some_eq hl]
      exact ih h
    | none =>
      rw [hl] at h
      simp at h

theorem string_data_ne_nil {p : String} (hp : p ≠ "") : p.data ≠ [] := by
  intro hd
  apply hp
  cases p with
  | mk d =>
    simp only [String.data] at hd
    rw [hd]

/-- C5: inserting the same non-empty pattern twice registers two distinct
identifiers (consecutive positions in the pattern list), creates no new
trie state, records both identifiers at the one terminal state of that
pattern, and concretely: two insertions of "ab" scanned over "ab" yield
two matches at offset 0, one per identifier. -/
theorem add_pattern_duplicate (ps : List String) (p : String) (hp : p ≠ "") :
    ((ps.foldl AhoCorasick.add_pattern AhoCorasick.init).add_pattern p).patterns.length
        = (ps.foldl AhoCorasick.add_pattern AhoCorasick.init).patterns.length + 1 ∧
    (((ps.foldl AhoCorasick.add_pattern AhoCorasick.init).add_pattern p).add_pattern p).patterns.length
        = ((ps.foldl AhoCorasick.add_pattern AhoCorasick.init).add_pattern p).patterns.length + 1 ∧
    (((ps.foldl AhoCorasick.add_pattern AhoCorasick.init).add_pattern p).add_pattern p).nodes.length
        = ((ps.foldl AhoCorasick.add_pattern AhoCorasick.init).add_pattern p).nodes.length ∧
    (∃ t, walkFrom
        (((ps.foldl AhoCorasick.add_pattern AhoCorasick.init).add_pattern p).add_pattern p).nodes 0 p.data
        = some t ∧
      endOf (((ps.foldl AhoCorasick.add_pattern AhoCorasick.init).add_pattern p).add_pattern p).nodes t
        = true ∧
      (ps.foldl AhoCorasick.add_pattern AhoCorasick.init).patterns.length
        ∈ outOf (((ps.foldl AhoCorasick.add_pattern AhoCorasick.init).add_pattern p).add_pattern p).nodes t ∧
      ((ps.foldl AhoCorasick.add_pattern AhoCorasick.init).add_pattern p).patterns.length
        ∈ outOf (((ps.foldl AhoCorasick.add_pattern AhoCorasick.init).add_pattern p).add_pattern p).nodes t) ∧
    AhoCorasick.search (buildAutomaton ["ab", "ab"]) "ab" = [(0, "ab"), (0, "ab")] := by
  have hpd : p.data ≠ [] := string_data_ne_nil hp
  set ac := ps.foldl AhoCorasick.add_pattern AhoCorasick.init with hacdef
  set ac1 := ac.add_pattern p with hac1def
  have h0 : TrieSpec ps ac := trieSpec_buildTrie ps
  have h1 : TrieSpec (ps ++ [p]) ac1 := trieSpec_add_pattern h0 p
  have hpats1 : ac1.patterns = ac.patterns ++ [p] := by
    rw [h1.pats, h0.pats, List.filter_append]
    have : (!p.data.isEmpty) = true := by simp [List.isEmpty_iff, hpd]
    simp [this]
  have hlab : isLabelOf (ps ++ [p]) p.data = true :=
    isLabelOf_iff.2 (Or.inr ⟨p, by simp, List.prefix_refl _⟩)
  have hsome : (walkFrom ac1.nodes 0 p.data).isSome = true := by
    rw [h1.dom]
    exact hlab
  obtain ⟨t1, ht1⟩ := Option.isSome_iff_exists.1 hsome
  have ht1lt : t1 < ac1.nodes.length := (walkFrom_bounds h1.wf ht1 h1.wf.root_lt).1
  have hacp2 : ac1.add_pattern p = ⟨setNode ac1.nodes t1 (fun nd =>
      { nd with is_end_of_pattern := true, output := nd.output ++ [ac1.patterns.length] }),
      ac1.patterns ++ [p]⟩ := by
    unfold AhoCorasick.add_pattern
    rw [if_neg hpd, addChars_walk_eq ht1]
  have hn2 : (ac1.add_pattern p).nodes = setNode ac1.nodes t1 (fun nd =>
      { nd with is_end_of_pattern := true, output := nd.output ++ [ac1.patterns.length] }) := by
    rw [hacp2]
  have hp2 : (ac1.add_pattern p).patterns = ac1.patterns ++ [p] := by
    rw [hacp2]
  have hch : ∀ k, childrenOf (ac1.add_pattern p).nodes k = childrenOf ac1.nodes k := by
    intro k
    rw [hn2]
    exact childrenOf_setNode_of_children_eq ac1.nodes t1 (fun nd =>
      { nd with is_end_of_pattern := true, output := nd.output ++ [ac1.patterns.length] })
      (fun nd => rfl) k
  refine ⟨?_, ?_, ?_, ⟨t1, ?_, ?_, ?_, ?_⟩, by decide⟩
  · rw [hpats1]
    simp
  · rw [hp2]
    simp
  · rw [hn2]
    simp [length_setNode]
  · rw [walkFrom_congr hch 0 p.data]
    exact ht1
  · rw [hn2]
    exact endOf_setNode_self _ ht1lt
  · rw [hn2, outOf_setNode_self _ ht1lt]
    apply List.mem_append.2
    left
    show ac.patterns.length ∈ outOf ac1.nodes t1
    rw [h1.out_spec p.data t1 ht1]
    rw [mem_idsEqualTo, hpats1]
    constructor
    · simp
    · rw [List.getElem?_append_right (le_refl _)]
      simp
  · rw [hn2, outOf_setNode_self _ ht1lt]
    apply List.mem_append.2
    right
    simp

/-! ## Phase B: the failure-link and output computation.
First, properties of the longest-label-suffix functions. -/

theorem suffix_append_same {u v w : List Char} (h : u <:+ v) : u ++ w <:+ v ++ w := by
  obtain ⟨x, rfl⟩ := h
  exact ⟨x, by simp⟩

theorem suffix_snoc {v t : List Char} {c : Char} (h : v <:+ t ++ [c]) :
    v = [] ∨ ∃ u, v = u ++ [c] ∧ u <:+ t := by
  rcases List.eq_nil_or_concat v with rfl | ⟨u, b, rfl⟩
  · exact Or.inl rfl
  · right
    rw [List.concat_eq_append] at h ⊢
    obtain ⟨x, hx⟩ := h
    have hx' : (x ++ u) ++ [b] = t ++ [c] := by
      rw [List.append_assoc]
      exact hx
    have hlen : (x ++ u).length = t.length := by
      have := congrArg List.length hx'
      simp only [List.length_append, List.length_cons, List.length_nil] at this
      simp only [List.length_append]
      omega
    obtain ⟨h1, h2⟩ := List.append_inj hx' hlen
    have hb : b = c := by simpa using h2
    subst hb
    exact ⟨u, rfl, ⟨x, h1⟩⟩

theorem isLabel_of_snoc {ps : List String} {u : List Char} {c : Char}
    (h : isLabelOf ps (u ++ [c]) = true) : isLabelOf ps u = true := by
  rcases isLabelOf_iff.1 h with h' | ⟨p, hp, hpre⟩
  · exact absurd h' (by simp)
  · exact isLabelOf_iff.2 (Or.inr ⟨p, hp, ((u.prefix_append [c]).trans hpre)⟩)

theorem longestLabelSuffix_isLabel (ps : List String) (s : List Char) :
    isLabelOf ps (longestLabelSuffix ps s) = true := by
  induction s with
  | nil => exact isLabelOf_nil ps
  | cons c rest ih =>
    rw [longestLabelSuffix]
    split
    · assumption
    · exact ih

theorem longestLabelSuffix_suffix (ps : List String) (s : List Char) :
    longestLabelSuffix ps s <:+ s := by
  induction s with
  | nil => exact List.suffix_refl []
  | cons c rest ih =>
    rw [longestLabelSuffix]
    split
    · exact List.suffix_refl _
    · exact ih.trans (List.suffix_cons c rest)

theorem longestLabelSuffix_maximal {ps : List String} {s t : List Char}
    (ht : t <:+ s) (hlab : isLabelOf ps t = true) :
    t <:+ longestLabelSuffix ps s := by
  induction s with
  | nil =>
    rw [List.suffix_nil.1 ht]
    exact List.suffix_refl _
  | cons c rest ih =>
    rw [longestLabelSuffix]
    split
    · exact ht
    · rcases List.suffix_cons_iff.1 ht with rfl | ht'
      · simp_all
      · exact ih ht'

theorem failLabel_isLabel (ps : List String) (s : List Char) :
    isLabelOf ps (failLabel ps s) = true :=
  longestLabelSuffix_isLabel ps s.tail

theorem failLabel_length_lt {ps : List String} {s : List Char} (hs : s ≠ []) :
    (failLabel ps s).length < s.length := by
  cases s with
  | nil => exact absurd rfl hs
  | cons c rest =>
    have := (longestLabelSuffix_suffix ps rest).length_le
    simp only [failLabel, List.tail_cons]
    simpa using Nat.lt_succ_of_le this

theorem failLabel_suffix {ps : List String} {s : List Char} (hs : s ≠ []) :
    failLabel ps s <:+ s := by
  cases s with
  | nil => exact absurd rfl hs
  | cons c rest =>
    exact (longestLabelSuffix_suffix ps rest).trans (List.suffix_cons c rest)

theorem failLabel_maximal {ps : List String} {s t : List Char}
    (ht : t <:+ s) (hne : t ≠ s) (hlab : isLabelOf ps t = true) :
    t <:+ failLabel ps s := by
  cases s with
  | nil => exact absurd (List.suffix_nil.1 ht) hne
  | cons c rest =>
    rcases List.suffix_cons_iff.1 ht with rfl | ht'
    · exact absurd rfl hne
    · exact longestLabelSuffix_maximal ht' hlab

theorem chainStop_suffix (ps : List String) (c : Char) (s : List Char) :
    chainStop ps c s <:+ s := by
  induction s with
  | nil => exact List.suffix_refl []
  | cons d rest ih =>
    rw [chainStop]
    split
    · exact List.suffix_refl _
    · exact ih.trans (List.suffix_cons d rest)

theorem chainStop_spec (ps : List String) (c : Char) (s : List Char) :
    chainStop ps c s = [] ∨
      (isLabelOf ps (chainStop ps c s) = true ∧
       isLabelOf ps (chainStop ps c s ++ [c]) = true) := by
  induction s with
  | nil => exact Or.inl rfl
  | cons d rest ih =>
    rw [chainStop]
    split
    · rename_i hcond
      rw [Bool.and_eq_true] at hcond
      exact Or.inr hcond
    · exact ih

theorem chainStop_maximal {ps : List String} {c : Char} {s t : List Char}
    (ht : t <:+ s) (h1 : isLabelOf ps t = true)
    (h2 : isLabelOf ps (t ++ [c]) = true) : t <:+ chainStop ps c s := by
  induction s with
  | nil =>
    rw [List.suffix_nil.1 ht]
    exact List.suffix_refl _
  | cons d rest ih =>
    rw [chainStop]
    split
    · exact ht
    · rename_i hcond
      rcases List.suffix_cons_iff.1 ht with rfl | ht'
      · rw [h1, h2] at hcond
        simp at hcond
      · exact ih ht'

theorem chainStop_lls (ps : List String) (c : Char) (s : List Char) :
    chainStop ps c s = chainStop ps c (longestLabelSuffix ps s) := by
  have hAB : chainStop ps c s <:+ chainStop ps c (longestLabelSuffix ps s) := by
    rcases chainStop_spec ps c s with h | ⟨h1, h2⟩
    · rw [h]
      exact List.nil_suffix
    · exact chainStop_maximal
        (longestLabelSuffix_maximal (chainStop_suffix ps c s) h1) h1 h2
  have hBA : chainStop ps c (longestLabelSuffix ps s) <:+ chainStop ps c s := by
    rcases chainStop_spec ps c (longestLabelSuffix ps s) with h | ⟨h1, h2⟩
    · rw [h]
      exact List.nil_suffix
    · exact chainStop_maximal
        ((chainStop_suffix ps c _).trans (longestLabelSuffix_suffix ps s)) h1 h2
  exact hAB.eq_of_length (le_antisymm hAB.length_le hBA.length_le)

theorem chainStop_recursion {ps : List String} {c : Char} {s : List Char}
    (hne : s ≠ []) (hnc : isLabelOf ps (s ++ [c]) = false) :
    chainStop ps c s = chainStop ps c (failLabel ps s) := by
  cases s with
  | nil => exact absurd rfl hne
  | cons d rest =>
    have hnc' : isLabelOf ps (d :: (rest ++ [c])) = false := by
      rw [← List.cons_append]
      exact hnc
    rw [chainStop, if_neg (by simp [hnc'])]
    exact chainStop_lls ps c rest

theorem chainStop_eq_self {ps : List String} {c : Char} {s : List Char}
    (hne : s ≠ []) (hs : isLabelOf ps s = true)
    (hc : isLabelOf ps (s ++ [c]) = true) : chainStop ps c s = s := by
  cases s with
  | nil => exact absurd rfl hne
  | cons d rest =>
    rw [chainStop, if_pos]
    rw [hs]
    simpa using hc

theorem lls_eq_of {ps : List String} {s w : List Char} (h1 : w <:+ s)
    (h2 : isLabelOf ps w = true)
    (h3 : ∀ v, v <:+ s → isLabelOf ps v = true → v <:+ w) :
    longestLabelSuffix ps s = w := by
  have ha := longestLabelSuffix_maximal h1 h2
  have hb := h3 _ (longestLabelSuffix_suffix ps s) (longestLabelSuffix_isLabel ps s)
  exact hb.eq_of_length (le_antisymm hb.length_le ha.length_le)

theorem failLabel_eq_of {ps : List String} {s w : List Char} (hs : s ≠ [])
    (h1 : w <:+ s) (hne : w ≠ s) (h2 : isLabelOf ps w = true)
    (h3 : ∀ v, v <:+ s → v ≠ s → isLabelOf ps v = true → v <:+ w) :
    failLabel ps s = w := by
  have ha := failLabel_maximal h1 hne h2
  have hblen := @failLabel_length_lt ps _ hs
  have hb := h3 _ (failLabel_suffix hs)
    (fun he => by rw [he] at hblen; omega) (failLabel_isLabel ps s)
  exact hb.eq_of_length (le_antisymm hb.length_le ha.length_le)

theorem lls_step (ps : List String) (t : List Char) (c : Char) :
    longestLabelSuffix ps (t ++ [c]) =
      (if isLabelOf ps (chainStop ps c (longestLabelSuffix ps t) ++ [c]) = true
       then chainStop ps c (longestLabelSuffix ps t) ++ [c] else []) := by
  by_cases hcond : isLabelOf ps (chainStop ps c (longestLabelSuffix ps t) ++ [c]) = true
  · rw [if_pos hcond]
    apply lls_eq_of
    · exact suffix_append_same
        ((chainStop_suffix ps c _).trans (longestLabelSuffix_suffix ps t))
    · exact hcond
    · intro v hv hvlab
      rcases suffix_snoc hv with rfl | ⟨u, rfl, hu⟩
      · exact List.nil_suffix
      · have hulab : isLabelOf ps u = true := isLabel_of_snoc hvlab
        have h1 : u <:+ longestLabelSuffix ps t := longestLabelSuffix_maximal hu hulab
        exact suffix_append_same (chainStop_maximal h1 hulab hvlab)
  · rw [if_neg hcond]
    have hT0nil : chainStop ps c (longestLabelSuffix ps t) = [] := by
      rcases chainStop_spec ps c (longestLabelSuffix ps t) with h | ⟨h1, h2⟩
      · exact h
      · exact absurd h2 hcond
    apply lls_eq_of List.nil_suffix (isLabelOf_nil ps)
    intro v hv hvlab
    rcases suffix_snoc hv with rfl | ⟨u, rfl, hu⟩
    · exact List.suffix_refl []
    · exfalso
      have hulab := isLabel_of_snoc hvlab
      have h2 : u <:+ chainStop ps c (longestLabelSuffix ps t) :=
        chainStop_maximal (longestLabelSuffix_maximal hu hulab) hulab hvlab
      rw [hT0nil] at h2
      rw [List.suffix_nil.1 h2] at hvlab
      rw [hT0nil] at hcond
      exact hcond (by simpa using hvlab)

theorem failLabel_step {ps : List String} {s : List Char} (c : Char) (hs : s ≠ []) :
    failLabel ps (s ++ [c]) =
      (if isLabelOf ps (chainStop ps c (failLabel ps s) ++ [c]) = true
       then chainStop ps c (failLabel ps s) ++ [c] else []) := by
  have hT1sub : chainStop ps c (failLabel ps s) <:+ failLabel ps s :=
    chainStop_suffix ps c _
  have hT1s : chainStop ps c (failLabel ps s) <:+ s := hT1sub.trans (failLabel_suffix hs)
  have hT1len : (chainStop ps c (failLabel ps s)).length < s.length :=
    lt_of_le_of_lt hT1sub.length_le (failLabel_length_lt hs)
  by_cases hcond : isLabelOf ps (chainStop ps c (failLabel ps s) ++ [c]) = true
  · rw [if_pos hcond]
    apply failLabel_eq_of (by simp)
    · exact suffix_append_same hT1s
    · intro he
      have := congrArg List.length he
      simp at this
      omega
    · exact hcond
    · intro v hv hvne hvlab
      rcases suffix_snoc hv with rfl | ⟨u, rfl, hu⟩
      · exact List.nil_suffix
      · have hune : u ≠ s := fun h => hvne (by rw [h])
        have hulab := isLabel_of_snoc hvlab
        have h1 : u <:+ failLabel ps s := failLabel_maximal hu hune hulab
        exact suffix_append_same (chainStop_maximal h1 hulab hvlab)
  · rw [if_neg hcond]
    have hT1nil : chainStop ps c (failLabel ps s) = [] := by
      rcases chainStop_spec ps c (failLabel ps s) with h | ⟨h1, h2⟩
      · exact h
      · exact absurd h2 hcond
    apply failLabel_eq_of (by simp) List.nil_suffix (by simp) (isLabelOf_nil ps)
    intro v hv hvne hvlab
    rcases suffix_snoc hv with rfl | ⟨u, rfl, hu⟩
    · exact List.suffix_refl []
    · exfalso
      have hune : u ≠ s := fun h => hvne (by rw [h])
      have hulab := isLabel_of_snoc hvlab
      have h2 : u <:+ chainStop ps c (failLabel ps s) :=
        chainStop_maximal (failLabel_maximal hu hune hulab) hulab hvlab
      rw [hT1nil] at h2
      rw [List.suffix_nil.1 h2] at hvlab
      rw [hT1nil] at hcond
      exact hcond (by simpa using hvlab)

theorem mem_idsSuffixOf {pats : List String} {s : List Char} {j : Nat} :
    j ∈ idsSuffixOf pats s ↔ j < pats.length ∧ ((pats[j]?).getD "").data <:+ s := by
  simp [idsSuffixOf, List.mem_filter, List.mem_range, List.isSuffixOf_iff_suffix]

theorem idsSuffixOf_nodup (pats : List String) (s : List Char) :
    (idsSuffixOf pats s).Nodup :=
  (List.nodup_range _).filter _

theorem idsEqualTo_nodup (pats : List String) (s : List Char) :
    (idsEqualTo pats s).Nodup :=
  (List.nodup_range _).filter _

theorem getD_mem_of_lt {pats : List String} {j : Nat} (hj : j < pats.length) :
    (pats[j]?).getD "" ∈ pats := by
  rw [List.getElem?_eq_getElem hj]
  exact List.getElem_mem hj

theorem idsSuffixOf_nil {pats : List String} (hne : ∀ q ∈ pats, q.data ≠ []) :
    idsSuffixOf pats [] = [] := by
  cases hc : idsSuffixOf pats [] with
  | nil => rfl
  | cons j js =>
    exfalso
    have hmem : j ∈ idsSuffixOf pats [] := by
      rw [hc]
      exact List.mem_cons_self j js
    rw [mem_idsSuffixOf] at hmem
    exact hne _ (getD_mem_of_lt hmem.1) (List.suffix_nil.1 hmem.2)

theorem mem_idsSuffixOf_decomp {ps : List String} {pats : List String}
    (hpats : ∀ q ∈ pats, isLabelOf ps q.data = true) {s : List Char} (hs : s ≠ [])
    (j : Nat) :
    (j ∈ idsSuffixOf pats s ↔
      j ∈ idsEqualTo pats s ∨ j ∈ idsSuffixOf pats (failLabel ps s)) ∧
    ¬(j ∈ idsEqualTo pats s ∧ j ∈ idsSuffixOf pats (failLabel ps s)) := by
  constructor
  · rw [mem_idsSuffixOf, mem_idsEqualTo, mem_idsSuffixOf]
    constructor
    · rintro ⟨hj, hsuf⟩
      by_cases he : ((pats[j]?).getD "").data = s
      · exact Or.inl ⟨hj, he⟩
      · refine Or.inr ⟨hj, ?_⟩
        exact failLabel_maximal hsuf he (hpats _ (getD_mem_of_lt hj))
    · rintro (⟨hj, he⟩ | ⟨hj, hsuf⟩)
      · exact ⟨hj, by rw [he]⟩
      · exact ⟨hj, hsuf.trans (failLabel_suffix hs)⟩
  · rw [mem_idsEqualTo, mem_idsSuffixOf]
    rintro ⟨⟨hj, he⟩, ⟨-, hsuf⟩⟩
    rw [he] at hsuf
    have h1 := hsuf.length_le
    have h2 := @failLabel_length_lt ps _ hs
    omega

theorem walkFrom_take_isSome {ns : List ACNode} {s : List Char} {k : Nat}
    (h : walkFrom ns 0 s = some k) (m : Nat) :
    (walkFrom ns 0 (s.take m)).isSome = true := by
  have hsplit : s = s.take m ++ s.drop m := (List.take_append_drop m s).symm
  rw [hsplit, walkFrom_append] at h
  cases hw : walkFrom ns 0 (s.take m) with
  | none => rw [hw] at h; simp at h
  | some j => rfl

theorem label_length_lt {ps : List String} {tr : AhoCorasick} (hts : TrieSpec ps tr)
    {s : List Char} {k : Nat} (h : walkFrom tr.nodes 0 s = some k) :
    s.length < tr.nodes.length := by
  have hinj : ∀ m ∈ List.range (s.length + 1), ∀ m' ∈ List.range (s.length + 1),
      (walkFrom tr.nodes 0 (s.take m)).getD 0 = (walkFrom tr.nodes 0 (s.take m')).getD 0 →
      m = m' := by
    intro m hm m' hm' heq
    rw [List.mem_range] at hm hm'
    obtain ⟨j, hj⟩ := Option.isSome_iff_exists.1 (walkFrom_take_isSome h m)
    obtain ⟨j', hj'⟩ := Option.isSome_iff_exists.1 (walkFrom_take_isSome h m')
    rw [hj, hj'] at heq
    simp only [Option.getD_some] at heq
    subst heq
    have heqtake := hts.inj _ _ _ hj hj'
    have hlen := congrArg List.length heqtake
    simp only [List.length_take] at hlen
    omega
  have hnodup : ((List.range (s.length + 1)).map
      (fun m => (walkFrom tr.nodes 0 (s.take m)).getD 0)).Nodup :=
    List.Nodup.map_on hinj (List.nodup_range _)
  have hsub : ((List.range (s.length + 1)).map
      (fun m => (walkFrom tr.nodes 0 (s.take m)).getD 0)).toFinset
        ⊆ Finset.range tr.nodes.length := by
    intro x hx
    rw [List.mem_toFinset] at hx
    obtain ⟨m, hm, hx'⟩ := List.mem_map.1 hx
    obtain ⟨j, hj⟩ := Option.isSome_iff_exists.1 (walkFrom_take_isSome h m)
    rw [Finset.mem_range, ← hx', hj]
    simpa using (walkFrom_bounds hts.wf hj hts.wf.root_lt).1
  have hcard := Finset.card_le_card hsub
  rw [List.toFinset_card_of_nodup hnodup] at hcard
  simpa using hcard

theorem walkFail_spec {ps : List String} {ns : List ACNode}
    (hdom : ∀ s, (walkFrom ns 0 s).isSome = isLabelOf ps s)
    (hinj : ∀ s t k, walkFrom ns 0 s = some k → walkFrom ns 0 t = some k → s = t)
    {D : Nat}
    (hready : ∀ u k', walkFrom ns 0 u = some k' → u ≠ [] → u.length ≤ D →
      walkFrom ns 0 (failLabel ps u) = some (failOf ns k'))
    (c : Char) :
    ∀ fuel s k, walkFrom ns 0 s = some k → s.length ≤ D → s.length + 1 ≤ fuel →
      walkFrom ns 0 (chainStop ps c s) = some (walkFail ns c k fuel) := by
  intro fuel
  induction fuel with
  | zero =>
    intro s k h hD hf
    omega
  | succ fuel ih =>
    intro s k h hD hf
    by_cases hs : s = []
    · subst hs
      have hk : k = 0 := by
        simpa [walkFrom, eq_comm] using h
      subst hk
      show walkFrom ns 0 (chainStop ps c []) = some (walkFail ns c 0 (fuel + 1))
      rw [chainStop, walkFail, if_pos rfl]
      rfl
    · have hk0 : k ≠ 0 := by
        intro hk
        subst hk
        exact hs (hinj s [] 0 h rfl)
      rw [walkFail, if_neg hk0]
      cases hl : lookupChild ns k c with
      | some j =>
        have hlabS : isLabelOf ps s = true := by
          rw [← hdom s, h]
          rfl
        have hlabSc : isLabelOf ps (s ++ [c]) = true := by
          rw [← hdom (s ++ [c]), walkFrom_append, h]
          simp [walkFrom, hl]
        rw [chainStop_eq_self hs hlabS hlabSc]
        exact h
      | none =>
        have hlabSc : isLabelOf ps (s ++ [c]) = false := by
          rw [← hdom (s ++ [c]), walkFrom_append, h]
          simp [walkFrom, hl]
        rw [chainStop_recursion hs hlabSc]
        have hfail := hready s k h hs hD
        have hflen := @failLabel_length_lt ps _ hs
        exact ih (failLabel ps s) (failOf ns k) hfail (by omega) (by omega)

theorem failOf_setNode_self {ns : List ACNode} {k : Nat} (f : ACNode → ACNode)
    (hk : k < ns.length) :
    failOf (setNode ns k f) k = (f ((ns[k]?).getD ACNode.init)).failure_link := by
  simp [failOf, getElem?_setNode_self ns f hk]

theorem failOf_setNode_ne (ns : List ACNode) {i j : Nat} (f : ACNode → ACNode)
    (hne : i ≠ j) : failOf (setNode ns i f) j = failOf ns j := by
  simp [failOf, getElem?_setNode_ne ns f hne]

theorem DoneNode_transport {ps : List String} {tr : AhoCorasick}
    {ns ns' : List ACNode} {k : Nat} (h : DoneNode ps tr ns k)
    (hf : failOf ns' k = failOf ns k) (ho : outOf ns' k = outOf ns k) :
    DoneNode ps tr ns' k := by
  obtain ⟨h1, h2⟩ := h
  refine ⟨fun s hs => ?_, ho ▸ h2⟩
  obtain ⟨ha, hb⟩ := h1 s hs
  exact ⟨hf ▸ ha, fun j => ho ▸ hb j⟩

theorem patterns_are_labels {ps : List String} {tr : AhoCorasick}
    (hts : TrieSpec ps tr) : ∀ q ∈ tr.patterns, isLabelOf ps q.data = true := by
  intro q hq
  rw [hts.pats] at hq
  exact isLabelOf_iff.2 (Or.inr ⟨q, (List.mem_filter.1 hq).1, List.prefix_refl _⟩)

theorem patterns_ne_nil {ps : List String} {tr : AhoCorasick}
    (hts : TrieSpec ps tr) : ∀ q ∈ tr.patterns, q.data ≠ [] := by
  intro q hq
  rw [hts.pats] at hq
  have := (List.mem_filter.1 hq).2
  intro hd
  rw [hd] at this
  simp at this

theorem procChildren_spec {ps : List String} {tr : AhoCorasick} (hts : TrieSpec ps tr)
    {d cur : Nat} {scur : List Char}
    (hscur : walkFrom tr.nodes 0 scur = some cur)
    (hscurlen : scur.length = d) (hd1 : 1 ≤ d) :
    ∀ (E : List (Char × Nat)) (ns : List ACNode),
      (∀ k, childrenOf ns k = childrenOf tr.nodes k) →
      ns.length = tr.nodes.length →
      (∀ j s, walkFrom tr.nodes 0 s = some j → s.length ≤ d → DoneNode ps tr ns j) →
      (∀ e ∈ E, e ∈ childrenOf tr.nodes cur) →
      (∀ e ∈ E, UntouchedNode tr ns e.2) →
      (E.map Prod.snd).Nodup →
      (∀ k, childrenOf (procChildren ns cur E).1 k = childrenOf tr.nodes k) ∧
      (procChildren ns cur E).1.length = tr.nodes.length ∧
      (procChildren ns cur E).2 = E.map Prod.snd ∧
      (∀ k, k ∉ E.map Prod.snd →
        failOf (procChildren ns cur E).1 k = failOf ns k ∧
        outOf (procChildren ns cur E).1 k = outOf ns k) ∧
      (∀ e ∈ E, DoneNode ps tr (procChildren ns cur E).1 e.2) := by
  intro E
  induction E with
  | nil =>
    intro ns hch hlen hready hE hUnt hEdist
    exact ⟨hch, hlen, rfl, fun k _ => ⟨rfl, rfl⟩, fun e he => absurd he (List.not_mem_nil e)⟩
  | cons e rest ih =>
    obtain ⟨c, child⟩ := e
    intro ns hch hlen hready hE hUnt hEdist
    have hscur_ne : scur ≠ [] := by
      intro h
      rw [h] at hscurlen
      simp at hscurlen
      omega
    have hmemE : (c, child) ∈ childrenOf tr.nodes cur := hE _ (List.mem_cons_self _ _)
    have hlookup : lookupChild tr.nodes cur c = some child :=
      mem_lookupChild (hts.wf.keysNodup cur) hmemE
    have hchildlab : walkFrom tr.nodes 0 (scur ++ [c]) = some child := by
      rw [walkFrom_append, hscur]
      simp [walkFrom, hlookup]
    have hchildlen : (scur ++ [c]).length = d + 1 := by
      simp [hscurlen]
    have hchild_lt : child < tr.nodes.length :=
      (walkFrom_bounds hts.wf hchildlab hts.wf.root_lt).1
    have hchild_lt' : child < ns.length := by omega
    -- the walkFail call computes the chainStop of the parent's failure label
    have hdom_ns : ∀ s, (walkFrom ns 0 s).isSome = isLabelOf ps s := by
      intro s
      rw [walkFrom_congr hch 0 s]
      exact hts.dom s
    have hinj_ns : ∀ s t k, walkFrom ns 0 s = some k → walkFrom ns 0 t = some k → s = t := by
      intro s t k hs ht
      rw [walkFrom_congr hch] at hs ht
      exact hts.inj s t k hs ht
    have hready_wf : ∀ u k', walkFrom ns 0 u = some k' → u ≠ [] → u.length ≤ d - 1 →
        walkFrom ns 0 (failLabel ps u) = some (failOf ns k') := by
      intro u k' hu hune hulen
      have hu' : walkFrom tr.nodes 0 u = some k' := by
        rw [← walkFrom_congr hch 0 u]
        exact hu
      have hdone' := hready k' u hu' (by omega)
      have hfl := (hdone'.1 u hu').1
      rw [walkFrom_congr hch 0 (failLabel ps u)]
      exact hfl
    have hcur_done := hready cur scur hscur (le_of_eq hscurlen)
    have hfailcur_tr : walkFrom tr.nodes 0 (failLabel ps scur) = some (failOf ns cur) :=
      (hcur_done.1 scur hscur).1
    have hfailcur_ns : walkFrom ns 0 (failLabel ps scur) = some (failOf ns cur) := by
      rw [walkFrom_congr hch 0 (failLabel ps scur)]
      exact hfailcur_tr
    have hfail_len : (failLabel ps scur).length < d := by
      have := @failLabel_length_lt ps _ hscur_ne
      omega
    have hfail_lt_n : (failLabel ps scur).length + 1 ≤ ns.length := by
      have := label_length_lt hts hfailcur_tr
      omega
    have hstop_ns : walkFrom ns 0 (chainStop ps c (failLabel ps scur))
        = some (walkFail ns c (failOf ns cur) ns.length) :=
      walkFail_spec hdom_ns hinj_ns hready_wf c ns.length (failLabel ps scur)
        (failOf ns cur) hfailcur_ns (by omega) hfail_lt_n
    have hstop_tr : walkFrom tr.nodes 0 (chainStop ps c (failLabel ps scur))
        = some (walkFail ns c (failOf ns cur) ns.length) := by
      rw [← walkFrom_congr hch 0 _]
      exact hstop_ns
    have hlk_eq : lookupChild ns (walkFail ns c (failOf ns cur) ns.length) c
        = lookupChild tr.nodes (walkFail ns c (failOf ns cur) ns.length) c := by
      unfold lookupChild
      rw [hch]
    -- the assigned failure target is the node of failLabel (scur ++ [c])
    have hfail_tgt : walkFrom tr.nodes 0 (failLabel ps (scur ++ [c]))
        = some ((lookupChild ns (walkFail ns c (failOf ns cur) ns.length) c).getD 0) := by
      rw [failLabel_step c hscur_ne]
      cases hl : lookupChild tr.nodes (walkFail ns c (failOf ns cur) ns.length) c with
      | some tgt =>
        have hT1c : walkFrom tr.nodes 0 (chainStop ps c (failLabel ps scur) ++ [c])
            = some tgt := by
          rw [walkFrom_append, hstop_tr]
          simp [walkFrom, hl]
        have hcond : isLabelOf ps (chainStop ps c (failLabel ps scur) ++ [c]) = true := by
          rw [← hts.dom, hT1c]
          rfl
        rw [if_pos hcond, hlk_eq, hl]
        simpa using hT1c
      | none =>
        have hT1c : walkFrom tr.nodes 0 (chainStop ps c (failLabel ps scur) ++ [c])
            = none := by
          rw [walkFrom_append, hstop_tr]
          simp [walkFrom, hl]
        have hcond : isLabelOf ps (chainStop ps c (failLabel ps scur) ++ [c]) = false := by
          rw [← hts.dom, hT1c]
          rfl
        rw [if_neg (by simp [hcond]), hlk_eq, hl]
        rfl
    have hflc_len : (failLabel ps (scur ++ [c])).length ≤ d := by
      have := @failLabel_length_lt ps (scur ++ [c]) (by simp)
      omega
    have htarget_done : DoneNode ps tr ns
        ((lookupChild ns (walkFail ns c (failOf ns cur) ns.length) c).getD 0) :=
      hready _ _ hfail_tgt hflc_len
    have houtiff_target := (htarget_done.1 _ hfail_tgt).2
    have hnodup_target := htarget_done.2
    have hunt_child := hUnt (c, child) (List.mem_cons_self _ _)
    have hlit : outOf tr.nodes child = idsEqualTo tr.patterns (scur ++ [c]) :=
      hts.out_spec _ _ hchildlab
    have hchild_ne_tgt :
        (lookupChild ns (walkFail ns c (failOf ns cur) ns.length) c).getD 0 ≠ child := by
      intro hg
      rw [hg] at hfail_tgt
      have := hts.inj _ _ _ hfail_tgt hchildlab
      have hlen2 := congrArg List.length this
      rw [hchildlen] at hlen2
      omega
    set target := (lookupChild ns (walkFail ns c (failOf ns cur) ns.length) c).getD 0 with htgtdef
    set ns1 := setNode ns child (fun nd =>
      { nd with failure_link := target, output := nd.output ++ outOf ns target }) with hns1def
    have hch1 : ∀ k, childrenOf ns1 k = childrenOf tr.nodes k := by
      intro k
      rw [hns1def, childrenOf_setNode_of_children_eq ns child (fun nd =>
        { nd with failure_link := target, output := nd.output ++ outOf ns target })
        (fun nd => rfl) k]
      exact hch k
    have hlen1 : ns1.length = tr.nodes.length := by
      rw [hns1def, length_setNode]
      exact hlen
    have hfail1self : failOf ns1 child = target := by
      rw [hns1def, failOf_setNode_self _ hchild_lt']
    have hout1self : outOf ns1 child = outOf ns child ++ outOf ns target := by
      rw [hns1def, outOf_setNode_self _ hchild_lt']
      rfl
    have hfail1ne : ∀ k, k ≠ child → failOf ns1 k = failOf ns k := by
      intro k hk
      rw [hns1def, failOf_setNode_ne ns _ (Ne.symm hk)]
    have hout1ne : ∀ k, k ≠ child → outOf ns1 k = outOf ns k := by
      intro k hk
      rw [hns1def, outOf_setNode_ne ns _ (Ne.symm hk)]
    have hchild_done1 : DoneNode ps tr ns1 child := by
      constructor
      · intro s hs
        have hseq : s = scur ++ [c] := hts.inj s (scur ++ [c]) child hs hchildlab
        subst hseq
        constructor
        · rw [hfail1self]
          exact hfail_tgt
        · intro j
          rw [hout1self, hunt_child.2, hlit, List.mem_append]
          rw [houtiff_target j]
          exact ((mem_idsSuffixOf_decomp (patterns_are_labels hts) (by simp) j).1).symm
      · rw [hout1self, hunt_child.2, hlit]
        apply List.Nodup.append (idsEqualTo_nodup _ _) hnodup_target
        intro a ha1 ha2
        rw [houtiff_target a] at ha2
        exact (@mem_idsSuffixOf_decomp ps tr.patterns (patterns_are_labels hts) (scur ++ [c])
          (by simp) a).2 ⟨ha1, ha2⟩
    have hready1 : ∀ j s, walkFrom tr.nodes 0 s = some j → s.length ≤ d →
        DoneNode ps tr ns1 j := by
      intro j s hj hslen
      have hjne : j ≠ child := by
        intro hje
        subst hje
        have := hts.inj s (scur ++ [c]) j hj hchildlab
        have hlen2 := congrArg List.length this
        rw [hchildlen] at hlen2
        omega
      exact DoneNode_transport (hready j s hj hslen) (hfail1ne j hjne) (hout1ne j hjne)
    have hEdist' := hEdist
    rw [List.map_cons, List.nodup_cons] at hEdist'
    have hUnt1 : ∀ e ∈ rest, UntouchedNode tr ns1 e.2 := by
      intro e he
      have hne : e.2 ≠ child := by
        intro hee
        exact hEdist'.1 (List.mem_map.2 ⟨e, he, hee⟩)
      obtain ⟨hu1, hu2⟩ := hUnt e (List.mem_cons_of_mem _ he)
      exact ⟨(hfail1ne e.2 hne).trans hu1, (hout1ne e.2 hne).trans hu2⟩
    obtain ⟨ihch, ihlen, ihq, ihframe, ihdone⟩ := ih ns1 hch1 hlen1 hready1
      (fun e he => hE e (List.mem_cons_of_mem _ he)) hUnt1 hEdist'.2
    have hred : procChildren ns cur ((c, child) :: rest)
        = ((procChildren ns1 cur rest).1, child :: (procChildren ns1 cur rest).2) := by
      rw [hns1def, htgtdef]
      simp only [procChildren]
    rw [hred]
    refine ⟨ihch, ihlen, ?_, ?_, ?_⟩
    · simp [ihq]
    · intro k hk
      rw [List.map_cons] at hk
      have hk1 : k ≠ child := fun h => hk (h ▸ List.mem_cons_self _ _)
      have hk2 : k ∉ rest.map Prod.snd := fun h => hk (List.mem_cons_of_mem _ h)
      obtain ⟨hf, ho⟩ := ihframe k hk2
      exact ⟨hf.trans (hfail1ne k hk1), ho.trans (hout1ne k hk1)⟩
    · intro e he
      rcases List.mem_cons.1 he with rfl | he'
      · have hchild_not : child ∉ rest.map Prod.snd := hEdist'.1
        obtain ⟨hf, ho⟩ := ihframe child hchild_not
        exact DoneNode_transport hchild_done1 hf ho
      · exact ihdone e he'

theorem walk_snoc_parent {ns : List ACNode} {u : List Char} {c : Char} {j : Nat}
    (h : walkFrom ns 0 (u ++ [c]) = some j) :
    ∃ i, walkFrom ns 0 u = some i ∧ lookupChild ns i c = some j := by
  rw [walkFrom_append] at h
  cases hu : walkFrom ns 0 u with
  | none => rw [hu] at h; simp at h
  | some i =>
    rw [hu] at h
    simp only [Option.some_bind] at h
    refine ⟨i, rfl, ?_⟩
    rw [walkFrom] at h
    cases hl : lookupChild ns i c with
    | none => rw [hl] at h; simp at h
    | some j' =>
      rw [hl] at h
      simpa [walkFrom] using h

theorem children_list_nodup {ps : List String} {tr : AhoCorasick}
    (hts : TrieSpec ps tr) (i : Nat) : (childrenOf tr.nodes i).Nodup :=
  (hts.wf.keysNodup i).of_map

theorem children_snd_nodup {ps : List String} {tr : AhoCorasick}
    (hts : TrieSpec ps tr) {i : Nat} {si : List Char}
    (hsi : walkFrom tr.nodes 0 si = some i) :
    ((childrenOf tr.nodes i).map Prod.snd).Nodup := by
  apply List.Nodup.map_on
  · intro e1 he1 e2 he2 heq
    have h1 : lookupChild tr.nodes i e1.1 = some e1.2 :=
      mem_lookupChild (hts.wf.keysNodup i) (by simpa using he1)
    have h2 : lookupChild tr.nodes i e2.1 = some e2.2 :=
      mem_lookupChild (hts.wf.keysNodup i) (by simpa using he2)
    have hw1 : walkFrom tr.nodes 0 (si ++ [e1.1]) = some e1.2 := by
      rw [walkFrom_append, hsi]
      simp [walkFrom, h1]
    have hw2 : walkFrom tr.nodes 0 (si ++ [e2.1]) = some e2.2 := by
      rw [walkFrom_append, hsi]
      simp [walkFrom, h2]
    rw [heq] at hw1
    have := hts.inj _ _ _ hw1 hw2
    have hc : e1.1 = e2.1 := by simpa using this
    exact Prod.ext hc heq
  · exact children_list_nodup hts i

theorem parent_unique {ps : List String} {tr : AhoCorasick} (hts : TrieSpec ps tr)
    {i1 i2 : Nat} {c1 c2 : Char} {j : Nat}
    (h1 : (c1, j) ∈ childrenOf tr.nodes i1) (h2 : (c2, j) ∈ childrenOf tr.nodes i2) :
    i1 = i2 ∧ c1 = c2 := by
  have hi1 : i1 < tr.nodes.length := by
    by_contra hn
    rw [childrenOf_oob (Nat.le_of_not_lt hn)] at h1
    exact absurd h1 (List.not_mem_nil _)
  have hi2 : i2 < tr.nodes.length := by
    by_contra hn
    rw [childrenOf_oob (Nat.le_of_not_lt hn)] at h2
    exact absurd h2 (List.not_mem_nil _)
  obtain ⟨s1, hs1⟩ := hts.surj i1 hi1
  obtain ⟨s2, hs2⟩ := hts.surj i2 hi2
  have hw1 : walkFrom tr.nodes 0 (s1 ++ [c1]) = some j := by
    rw [walkFrom_append, hs1]
    simp [walkFrom, mem_lookupChild (hts.wf.keysNodup i1) h1]
  have hw2 : walkFrom tr.nodes 0 (s2 ++ [c2]) = some j := by
    rw [walkFrom_append, hs2]
    simp [walkFrom, mem_lookupChild (hts.wf.keysNodup i2) h2]
  have heq := hts.inj _ _ _ hw1 hw2
  have hlen12 : s1.length = s2.length := by
    have := congrArg List.length heq
    simp at this
    omega
  obtain ⟨hs, hc⟩ := List.append_inj heq hlen12
  constructor
  · rw [hs] at hs1
    rw [hs1] at hs2
    exact Option.some_inj.1 hs2
  · simpa using hc

theorem BfsInv_empty_done {ps : List String} {tr : AhoCorasick} {P : Finset Nat}
    {d : Nat} {ns : List ACNode} (hts : TrieSpec ps tr)
    (hinv : BfsInv ps tr P d ns []) : ∀ j, DoneNode ps tr ns j := by
  have hallP : ∀ m s j, s.length ≤ m → walkFrom tr.nodes 0 s = some j → j ≠ 0 → j ∈ P := by
    intro m
    induction m with
    | zero =>
      intro s j hlen hw hj
      have hs0 : s = [] := List.length_eq_zero.1 (by omega)
      subst hs0
      exfalso
      simp [walkFrom] at hw
      omega
    | succ m ihm =>
      intro s j hlen hw hj
      rcases List.eq_nil_or_concat s with rfl | ⟨u, c, rfl⟩
      · exfalso
        simp [walkFrom] at hw
        omega
      · rw [List.concat_eq_append] at hw hlen
        obtain ⟨i, hu, hl⟩ := walk_snoc_parent hw
        have hmem := lookupChild_mem hl
        have hiff := hinv.enq_iff i c j hmem
        simp only [List.not_mem_nil, or_false] at hiff
        by_cases hi : i = 0
        · exact hiff.2 (Or.inr hi)
        · have hul : u.length ≤ m := by
            simp at hlen
            omega
          exact hiff.2 (Or.inl (ihm u i hul hu hi))
  intro j
  by_cases hj0 : j = 0
  · exact hinv.hdone j (Or.inl hj0)
  · by_cases hjn : j < tr.nodes.length
    · obtain ⟨s, hs⟩ := hts.surj j hjn
      exact hinv.hdone j (Or.inr (Or.inl (hallP s.length s j le_rfl hs hj0)))
    · constructor
      · intro s hs
        exact absurd (walkFrom_bounds hts.wf hs hts.wf.root_lt).1 hjn
      · rw [outOf_oob (show ns.length ≤ j by rw [hinv.hlen]; omega)]
        exact List.nodup_nil

theorem BfsInv_norm {ps : List String} {tr : AhoCorasick} {P : Finset Nat}
    {d cur : Nat} {ns : List ACNode} {rest : List Nat} (hts : TrieSpec ps tr)
    (hinv : BfsInv ps tr P d ns (cur :: rest)) :
    ∃ d' qA' qB', BfsInv ps tr P d' ns (cur :: rest) ∧ 1 ≤ d' ∧
      rest = qA' ++ qB' ∧
      (∀ s, walkFrom tr.nodes 0 s = some cur → s.length = d') ∧
      (∀ j ∈ qA', ∀ s, walkFrom tr.nodes 0 s = some j → s.length = d') ∧
      (∀ j ∈ qB', ∀ s, walkFrom tr.nodes 0 s = some j → s.length = d' + 1) ∧
      (∀ j s, walkFrom tr.nodes 0 s = some j → s.length ≤ d' → j ≠ 0 →
        (j ∈ P ∨ j ∈ cur :: rest)) := by
  obtain ⟨qA, qB, heq, hA, hB, hcomp⟩ := hinv.hlevel
  cases qA with
  | cons a qA' =>
    have ha : a = cur := by
      have := congrArg (fun l => l.head?) heq
      simpa using this.symm
    subst ha
    have hrest : rest = qA' ++ qB := by
      have := congrArg List.tail heq
      simpa using this
    exact ⟨d, qA', qB, hinv, hinv.hd1, hrest,
      hA a (List.mem_cons_self _ _), fun j hj => hA j (List.mem_cons_of_mem _ hj),
      hB, hcomp⟩
  | nil =>
    simp only [List.nil_append] at heq
    have hcomp' : ∀ j s, walkFrom tr.nodes 0 s = some j → s.length ≤ d + 1 → j ≠ 0 →
        (j ∈ P ∨ j ∈ cur :: rest) := by
      intro j s hw hlen hj
      rcases Nat.lt_or_ge s.length (d + 1) with hlt | hge
      · exact hcomp j s hw (by omega) hj
      · have hslen : s.length = d + 1 := by omega
        rcases List.eq_nil_or_concat s with rfl | ⟨u, c, rfl⟩
        · simp at hslen
        · rw [List.concat_eq_append] at hw hslen
          obtain ⟨i, hu, hl⟩ := walk_snoc_parent hw
          have hmem := lookupChild_mem hl
          have hiff := hinv.enq_iff i c j hmem
          by_cases hi : i = 0
          · exact hiff.2 (Or.inr hi)
          · have hulen : u.length ≤ d := by
              simp at hslen
              omega
            rcases hcomp i u hu hulen hi with hiP | hiQ
            · exact hiff.2 (Or.inl hiP)
            · exfalso
              rw [heq] at hiQ
              have := hB i hiQ u hu
              omega
    refine ⟨d + 1, rest, [], ?_, by omega, by simp, ?_, ?_, ?_, hcomp'⟩
    · refine ⟨hinv.hch, hinv.hlen, hinv.rootP, hinv.rootQ, hinv.hPlab, hinv.hQlab,
        hinv.enq_iff, hinv.qnodup, hinv.qdisj, hinv.hdone, hinv.huntouched,
        ⟨cur :: rest, [], by simp, ?_, by simp, ?_⟩, by omega⟩
      · intro j hj s hw
        rw [heq] at hj
        exact hB j hj s hw
      · intro j s hw hlen hj
        exact hcomp' j s hw (by omega) hj
    · intro s hw
      rw [← heq] at hB
      exact hB cur (List.mem_cons_self _ _) s hw
    · intro j hj s hw
      rw [← heq] at hB
      exact hB j (List.mem_cons_of_mem _ hj) s hw
    · intro j hj
      exact absurd hj (List.not_mem_nil j)

theorem bfsLoop_spec {ps : List String} {tr : AhoCorasick} (hts : TrieSpec ps tr) :
    ∀ (fuel : Nat) (P : Finset Nat) (d : Nat) (ns : List ACNode) (queue : List Nat),
      BfsInv ps tr P d ns queue →
      tr.nodes.length ≤ fuel + P.card + 1 →
      (∀ k, childrenOf (bfsLoop fuel ns queue) k = childrenOf tr.nodes k) ∧
      (bfsLoop fuel ns queue).length = tr.nodes.length ∧
      (∀ j, DoneNode ps tr (bfsLoop fuel ns queue) j) := by
  intro fuel
  induction fuel with
  | zero =>
    intro P d ns queue hinv hfuel
    cases queue with
    | nil => exact ⟨hinv.hch, hinv.hlen, BfsInv_empty_done hts hinv⟩
    | cons cur rest =>
      exfalso
      obtain ⟨scur, hscur⟩ := hinv.hQlab cur (List.mem_cons_self _ _)
      have hcur0 : cur ≠ 0 := fun h => hinv.rootQ (h ▸ List.mem_cons_self _ _)
      have hcurP : cur ∉ P := hinv.qdisj cur (List.mem_cons_self _ _)
      have hcurlt : cur < tr.nodes.length :=
        (walkFrom_bounds hts.wf hscur hts.wf.root_lt).1
      have hsub : insert cur P ⊆ (Finset.range tr.nodes.length).erase 0 := by
        intro x hx
        rcases Finset.mem_insert.1 hx with rfl | hxP
        · rw [Finset.mem_erase, Finset.mem_range]
          exact ⟨hcur0, hcurlt⟩
        · obtain ⟨s, hsx⟩ := hinv.hPlab x hxP
          rw [Finset.mem_erase, Finset.mem_range]
          exact ⟨fun h0 => hinv.rootP (h0 ▸ hxP),
            (walkFrom_bounds hts.wf hsx hts.wf.root_lt).1⟩
      have hcard := Finset.card_le_card hsub
      rw [Finset.card_insert_of_not_mem hcurP,
        Finset.card_erase_of_mem (Finset.mem_range.2 hts.wf.root_lt),
        Finset.card_range] at hcard
      omega
  | succ fuel ih =>
    intro P d ns queue hinv hfuel
    cases queue with
    | nil => exact ⟨hinv.hch, hinv.hlen, BfsInv_empty_done hts hinv⟩
    | cons cur rest =>
      obtain ⟨d', qA', qB', hinv', hd1', hrest, hcurdep, hA, hB, hcomp⟩ :=
        BfsInv_norm hts hinv
      clear hinv
      obtain ⟨scur, hscur⟩ := hinv'.hQlab cur (List.mem_cons_self _ _)
      have hcur0 : cur ≠ 0 := fun h => hinv'.rootQ (h ▸ List.mem_cons_self _ _)
      have hcurP : cur ∉ P := hinv'.qdisj cur (List.mem_cons_self _ _)
      have hscurlen : scur.length = d' := hcurdep scur hscur
      have hcurlt : cur < tr.nodes.length :=
        (walkFrom_bounds hts.wf hscur hts.wf.root_lt).1
      have hcurnodup := hinv'.qnodup
      rw [List.nodup_cons] at hcurnodup
      have hready : ∀ j s, walkFrom tr.nodes 0 s = some j → s.length ≤ d' →
          DoneNode ps tr ns j := by
        intro j s hj hslen
        by_cases hj0 : j = 0
        · exact hinv'.hdone j (Or.inl hj0)
        · exact hinv'.hdone j (Or.inr (hcomp j s hj hslen hj0))
      have hchildlab : ∀ c j, (c, j) ∈ childrenOf tr.nodes cur →
          walkFrom tr.nodes 0 (scur ++ [c]) = some j := by
        intro c j hm
        rw [walkFrom_append, hscur]
        simp [walkFrom, mem_lookupChild (hts.wf.keysNodup cur) hm]
      have hchild0 : ∀ c j, (c, j) ∈ childrenOf tr.nodes cur → j ≠ 0 := by
        intro c j hm
        have := hts.wf.childLt cur (c, j) hm
        omega
      have hchild_not_enq : ∀ c j, (c, j) ∈ childrenOf tr.nodes cur →
          j ∉ P ∧ j ∉ (cur :: rest) := by
        intro c j hm
        have hiff := hinv'.enq_iff cur c j hm
        have hfalse : ¬(cur ∈ P ∨ cur = 0) := by
          rintro (h | h)
          exacts [hcurP h, hcur0 h]
        exact ⟨fun h => hfalse (hiff.1 (Or.inl h)),
          fun h => hfalse (hiff.1 (Or.inr h))⟩
      have hchild_ne_cur : ∀ c j, (c, j) ∈ childrenOf tr.nodes cur → j ≠ cur := by
        intro c j hm hj
        subst hj
        have := hts.inj _ _ _ (hchildlab c j hm) hscur
        have hlen2 := congrArg List.length this
        simp at hlen2
      have hUnt : ∀ e ∈ childrenOf tr.nodes cur, UntouchedNode tr ns e.2 := by
        intro e he
        obtain ⟨c0, j0⟩ := e
        obtain ⟨hnP, hnQ⟩ := hchild_not_enq c0 j0 he
        exact hinv'.huntouched j0 (hchild0 c0 j0 he) hnP hnQ
      have hEdist := children_snd_nodup hts hscur
      obtain ⟨pch, plen, pq, pframe, pdone⟩ := procChildren_spec hts hscur hscurlen hd1'
        (childrenOf tr.nodes cur) ns hinv'.hch hinv'.hlen hready (fun e he => he)
        hUnt hEdist
      have hchcur : childrenOf ns cur = childrenOf tr.nodes cur := hinv'.hch cur
      have hred : bfsLoop (fuel + 1) ns (cur :: rest)
          = bfsLoop fuel (procChildren ns cur (childrenOf tr.nodes cur)).1
              (rest ++ (procChildren ns cur (childrenOf tr.nodes cur)).2) := by
        simp only [bfsLoop]
        rw [hchcur]
      rw [hred, pq]
      have hmem_chm : ∀ j, j ∈ (childrenOf tr.nodes cur).map Prod.snd →
          ∃ c, (c, j) ∈ childrenOf tr.nodes cur := by
        intro j hj
        obtain ⟨e, he, hee⟩ := List.mem_map.1 hj
        obtain ⟨c2, j2⟩ := e
        simp only at hee
        subst hee
        exact ⟨c2, he⟩
      apply ih (insert cur P) d'
      · -- the new invariant
        refine ⟨pch, plen, ?_, ?_, ?_, ?_, ?_, ?_, ?_, ?_, ?_, ?_, hd1'⟩
        · rw [Finset.mem_insert]
          rintro (h | h)
          exacts [hcur0 h.symm, hinv'.rootP h]
        · intro h0
          rcases List.mem_append.1 h0 with h | h
          · exact hinv'.rootQ (List.mem_cons_of_mem _ h)
          · obtain ⟨c, hm⟩ := hmem_chm 0 h
            exact hchild0 c 0 hm rfl
        · intro k hk
          rcases Finset.mem_insert.1 hk with rfl | hkP
          · exact ⟨scur, hscur⟩
          · exact hinv'.hPlab k hkP
        · intro k hk
          rcases List.mem_append.1 hk with h | h
          · exact hinv'.hQlab k (List.mem_cons_of_mem _ h)
          · obtain ⟨c, hm⟩ := hmem_chm k h
            exact ⟨scur ++ [c], hchildlab c k hm⟩
        · intro i c j hm
          by_cases hicur : i = cur
          · subst hicur
            have hj_in : j ∈ (childrenOf tr.nodes i).map Prod.snd :=
              List.mem_map.2 ⟨(c, j), hm, rfl⟩
            constructor
            · intro _
              exact Or.inl (Finset.mem_insert_self _ _)
            · intro _
              exact Or.inr (List.mem_append.2 (Or.inr hj_in))
          · have hiff := hinv'.enq_iff i c j hm
            have hjchm : j ∉ (childrenOf tr.nodes cur).map Prod.snd := by
              intro hj
              obtain ⟨c2, he⟩ := hmem_chm j hj
              exact hicur (parent_unique hts hm he).1
            constructor
            · intro hnew
              have hold : j ∈ P ∨ j ∈ cur :: rest := by
                rcases hnew with hjP | hjQ
                · rcases Finset.mem_insert.1 hjP with rfl | hjP'
                  · exact Or.inr (List.mem_cons_self _ _)
                  · exact Or.inl hjP'
                · rcases List.mem_append.1 hjQ with hjr | hjc
                  · exact Or.inr (List.mem_cons_of_mem _ hjr)
                  · exact absurd hjc hjchm
              rcases hiff.1 hold with h | h
              · exact Or.inl (Finset.mem_insert_of_mem h)
              · exact Or.inr h
            · intro hnew
              have hold : i ∈ P ∨ i = 0 := by
                rcases hnew with hiP' | hi0
                · rcases Finset.mem_insert.1 hiP' with rfl | hiP
                  · exact absurd rfl hicur
                  · exact Or.inl hiP
                · exact Or.inr hi0
              rcases hiff.2 hold with h | h
              · exact Or.inl (Finset.mem_insert_of_mem h)
              · rcases List.mem_cons.1 h with rfl | hr
                · exact Or.inl (Finset.mem_insert_self _ _)
                · exact Or.inr (List.mem_append.2 (Or.inl hr))
        · apply List.Nodup.append hcurnodup.2 hEdist
          intro a ha hac
          obtain ⟨c, hm⟩ := hmem_chm a hac
          exact (hchild_not_enq c a hm).2 (List.mem_cons_of_mem _ ha)
        · intro j hj
          rcases List.mem_append.1 hj with h | h
          · rw [Finset.mem_insert]
            rintro (rfl | hjP)
            · exact hcurnodup.1 h
            · exact hinv'.qdisj j (List.mem_cons_of_mem _ h) hjP
          · obtain ⟨c, hm⟩ := hmem_chm j h
            rw [Finset.mem_insert]
            rintro (rfl | hjP)
            · exact hchild_ne_cur c j hm rfl
            · exact (hchild_not_enq c j hm).1 hjP
        · intro j hj
          by_cases hjchm : j ∈ (childrenOf tr.nodes cur).map Prod.snd
          · obtain ⟨c, hm⟩ := hmem_chm j hjchm
            have := pdone (c, j) hm
            exact this
          · obtain ⟨hf, ho⟩ := pframe j hjchm
            apply DoneNode_transport _ hf ho
            rcases hj with hj0 | hjP | hjQ
            · exact hinv'.hdone j (Or.inl hj0)
            · rcases Finset.mem_insert.1 hjP with rfl | hjP'
              · exact hinv'.hdone j (Or.inr (Or.inr (List.mem_cons_self _ _)))
              · exact hinv'.hdone j (Or.inr (Or.inl hjP'))
            · rcases List.mem_append.1 hjQ with h | h
              · exact hinv'.hdone j (Or.inr (Or.inr (List.mem_cons_of_mem _ h)))
              · exact absurd h hjchm
        · intro j hj0 hjP hjQ
          have hjchm : j ∉ (childrenOf tr.nodes cur).map Prod.snd := by
            intro h
            exact hjQ (List.mem_append.2 (Or.inr h))
          have hjrest : j ∉ rest := fun h => hjQ (List.mem_append.2 (Or.inl h))
          have hjcur : j ≠ cur := fun h => hjP (h ▸ Finset.mem_insert_self _ _)
          have hjP' : j ∉ P := fun h => hjP (Finset.mem_insert_of_mem h)
          have hjold : j ∉ cur :: rest := by
            intro h
            rcases List.mem_cons.1 h with rfl | h'
            exacts [hjcur rfl, hjrest h']
          obtain ⟨hu1, hu2⟩ := hinv'.huntouched j hj0 hjP' hjold
          obtain ⟨hf, ho⟩ := pframe j hjchm
          exact ⟨hf.trans hu1, ho.trans hu2⟩
        · refine ⟨qA', qB' ++ (childrenOf tr.nodes cur).map Prod.snd,
            by rw [hrest, List.append_assoc], hA, ?_, ?_⟩
          · intro j hj s hw
            rcases List.mem_append.1 hj with h | h
            · exact hB j h s hw
            · obtain ⟨c, hm⟩ := hmem_chm j h
              have := hts.inj s (scur ++ [c]) j hw (hchildlab c j hm)
              rw [this]
              simp [hscurlen]
          · intro j s hw hslen hj0
            rcases hcomp j s hw hslen hj0 with h | h
            · exact Or.inl (Finset.mem_insert_of_mem h)
            · rcases List.mem_cons.1 h with rfl | hr
              · exact Or.inl (Finset.mem_insert_self _ _)
              · exact Or.inr (List.mem_append.2 (Or.inl hr))
      · rw [Finset.card_insert_of_not_mem hcurP]
        omega

theorem foldl_setFail_children (js : List Nat) (ns : List ACNode) (k : Nat) :
    childrenOf (js.foldl
      (fun ns j => setNode ns j (fun nd => { nd with failure_link := 0 })) ns) k
      = childrenOf ns k := by
  induction js generalizing ns with
  | nil => rfl
  | cons j js ihf =>
    simp only [List.foldl_cons]
    rw [ihf, childrenOf_setNode_of_children_eq ns j
      (fun nd => { nd with failure_link := 0 }) (fun nd => rfl) k]

theorem foldl_setFail_out (js : List Nat) (ns : List ACNode) (k : Nat) :
    outOf (js.foldl
      (fun ns j => setNode ns j (fun nd => { nd with failure_link := 0 })) ns) k
      = outOf ns k := by
  induction js generalizing ns with
  | nil => rfl
  | cons j js ihf =>
    simp only [List.foldl_cons]
    rw [ihf, outOf_setNode_of_output_eq ns j
      (fun nd => { nd with failure_link := 0 }) (fun nd => rfl) k]

theorem foldl_setFail_len (js : List Nat) (ns : List ACNode) :
    (js.foldl
      (fun ns j => setNode ns j (fun nd => { nd with failure_link := 0 })) ns).length
      = ns.length := by
  induction js generalizing ns with
  | nil => rfl
  | cons j js ihf =>
    simp only [List.foldl_cons]
    rw [ihf, length_setNode]

theorem foldl_setFail_fail (js : List Nat) (ns : List ACNode)
    (h : ∀ k, failOf ns k = 0) (k : Nat) :
    failOf (js.foldl
      (fun ns j => setNode ns j (fun nd => { nd with failure_link := 0 })) ns) k
      = 0 := by
  induction js generalizing ns with
  | nil => exact h k
  | cons j js ihf =>
    simp only [List.foldl_cons]
    apply ihf
    intro k'
    rcases eq_or_ne j k' with rfl | hne
    · by_cases hlt : j < ns.length
      · rw [failOf_setNode_self _ hlt]
      · rw [setNode, failOf]
        rw [List.getElem?_set, if_pos rfl, if_neg hlt]
        rfl
    · rw [failOf_setNode_ne ns _ hne]
      exact h k'

theorem BfsInv_init {ps : List String} {tr : AhoCorasick} (hts : TrieSpec ps tr) :
    BfsInv ps tr ∅ 1
      (((childrenOf tr.nodes 0).map (fun e => e.2)).foldl
        (fun ns j => setNode ns j (fun nd => { nd with failure_link := 0 })) tr.nodes)
      ((childrenOf tr.nodes 0).map (fun e => e.2)) := by
  have hch0 := foldl_setFail_children ((childrenOf tr.nodes 0).map (fun e => e.2)) tr.nodes
  have hout0 := foldl_setFail_out ((childrenOf tr.nodes 0).map (fun e => e.2)) tr.nodes
  have hlen0 := foldl_setFail_len ((childrenOf tr.nodes 0).map (fun e => e.2)) tr.nodes
  have hfail0 := foldl_setFail_fail ((childrenOf tr.nodes 0).map (fun e => e.2)) tr.nodes
    hts.fail0
  have hmem_chm : ∀ j, j ∈ (childrenOf tr.nodes 0).map (fun e => e.2) →
      ∃ c, (c, j) ∈ childrenOf tr.nodes 0 := by
    intro j hj
    obtain ⟨e, he, hee⟩ := List.mem_map.1 hj
    obtain ⟨c2, j2⟩ := e
    simp only at hee
    subst hee
    exact ⟨c2, he⟩
  have hrootlab : walkFrom tr.nodes 0 [] = some 0 := rfl
  have hchildlab : ∀ c j, (c, j) ∈ childrenOf tr.nodes 0 →
      walkFrom tr.nodes 0 [c] = some j := by
    intro c j hm
    simp [walkFrom, mem_lookupChild (hts.wf.keysNodup 0) hm]
  have hout_root : outOf tr.nodes 0 = [] := by
    rw [hts.out_spec [] 0 hrootlab]
    exact idsEqualTo_eq_nil (fun q hq hd => patterns_ne_nil hts q hq hd)
  have hsufnil : idsSuffixOf tr.patterns [] = [] :=
    idsSuffixOf_nil (patterns_ne_nil hts)
  refine ⟨hch0, hlen0, Finset.not_mem_empty 0, ?_, ?_, ?_, ?_, ?_, ?_, ?_, ?_, ?_, le_refl 1⟩
  · intro h0
    obtain ⟨c, hm⟩ := hmem_chm 0 h0
    have := hts.wf.childLt 0 (c, 0) hm
    omega
  · intro k hk
    exact absurd hk (Finset.not_mem_empty k)
  · intro k hk
    obtain ⟨c, hm⟩ := hmem_chm k hk
    exact ⟨[c], hchildlab c k hm⟩
  · intro i c j hm
    simp only [Finset.not_mem_empty, false_or]
    constructor
    · intro hj
      obtain ⟨c2, hm2⟩ := hmem_chm j hj
      exact (parent_unique hts hm hm2).1
    · intro hi
      subst hi
      exact List.mem_map.2 ⟨(c, j), hm, rfl⟩
  · exact children_snd_nodup hts hrootlab
  · intro j hj
    exact Finset.not_mem_empty j
  · intro j hj
    rcases hj with hj0 | hjP | hjQ
    · subst hj0
      constructor
      · intro s hs
        have hsnil : s = [] := hts.inj s [] 0 hs hrootlab
        subst hsnil
        constructor
        · show walkFrom tr.nodes 0 (failLabel ps []) = some (failOf _ 0)
          rw [hfail0 0]
          rfl
        · intro j
          rw [hout0 0, hout_root, hsufnil]
      · rw [hout0 0, hout_root]
        exact List.nodup_nil
    · exact absurd hjP (Finset.not_mem_empty j)
    · obtain ⟨c, hm⟩ := hmem_chm j hjQ
      constructor
      · intro s hs
        have hseq : s = [c] := hts.inj s [c] j hs (hchildlab c j hm)
        subst hseq
        constructor
        · show walkFrom tr.nodes 0 (failLabel ps [c]) = some (failOf _ j)
          rw [hfail0 j]
          rfl
        · intro j'
          rw [hout0 j, hts.out_spec [c] j (hchildlab c j hm)]
          have hdec := (@mem_idsSuffixOf_decomp ps tr.patterns (patterns_are_labels hts)
            [c] (by simp) j').1
          rw [hdec]
          have : failLabel ps [c] = [] := rfl
          rw [this, hsufnil]
          simp
      · rw [hout0 j, hts.out_spec [c] j (hchildlab c j hm)]
        exact idsEqualTo_nodup _ _
  · intro j hj0 hjP hjQ
    refine ⟨?_, hout0 j⟩
    rw [hfail0 j, hts.fail0 j]
  · refine ⟨(childrenOf tr.nodes 0).map (fun e => e.2), [], by simp, ?_, ?_, ?_⟩
    · intro j hj s hw
      obtain ⟨c, hm⟩ := hmem_chm j hj
      have := hts.inj s [c] j hw (hchildlab c j hm)
      rw [this]
      rfl
    · intro j hj
      exact absurd hj (List.not_mem_nil j)
    · intro j s hw hslen hj0
      right
      rcases Nat.lt_or_ge s.length 1 with h1 | h1
      · exfalso
        have hs0 : s = [] := List.length_eq_zero.1 (by omega)
        subst hs0
        exact hj0 (Option.some_inj.1 (hrootlab ▸ hw)).symm
      · have hslen1 : s.length = 1 := by omega
        obtain ⟨c, hc⟩ := List.length_eq_one.1 hslen1
        subst hc
        simp only [walkFrom] at hw
        cases hl : lookupChild tr.nodes 0 c with
        | none => rw [hl] at hw; simp at hw
        | some j' =>
          rw [hl] at hw
          simp only [walkFrom, Option.some_inj] at hw
          subst hw
          exact List.mem_map.2 ⟨(c, j'), lookupChild_mem hl, rfl⟩

theorem autSpec_buildAutomaton (ps : List String) :
    AutSpec ps (buildAutomaton ps) := by
  have hts := trieSpec_buildTrie ps
  set tr := ps.foldl AhoCorasick.add_pattern AhoCorasick.init with htrdef
  obtain ⟨hch, hlen, hdoneAll⟩ := bfsLoop_spec hts tr.nodes.length ∅ 1 _ _
    (BfsInv_init hts) (by simp)
  have hbn : (buildAutomaton ps).nodes = bfsLoop tr.nodes.length
      (((childrenOf tr.nodes 0).map (fun e => e.2)).foldl
        (fun ns j => setNode ns j (fun nd => { nd with failure_link := 0 })) tr.nodes)
      ((childrenOf tr.nodes 0).map (fun e => e.2)) := rfl
  have hbp : (buildAutomaton ps).patterns = tr.patterns := rfl
  have hch2 : ∀ k, childrenOf (buildAutomaton ps).nodes k = childrenOf tr.nodes k := by
    rw [hbn]; exact hch
  have hlen2 : (buildAutomaton ps).nodes.length = tr.nodes.length := by
    rw [hbn]; exact hlen
  have hdone2 : ∀ j, DoneNode ps tr (buildAutomaton ps).nodes j := by
    rw [hbn]; exact hdoneAll
  have hwalk : ∀ a s, walkFrom (buildAutomaton ps).nodes a s = walkFrom tr.nodes a s :=
    fun a s => walkFrom_congr hch2 a s
  refine ⟨?_, ?_, ?_, ?_, ?_, ?_, ?_, ?_⟩
  · exact ArenaWF_congr hlen2.symm (fun k => (hch2 k).symm) hts.wf
  · rw [hbp]; exact hts.pats
  · intro s
    rw [hwalk 0 s]
    exact hts.dom s
  · intro s t k hs ht
    rw [hwalk 0 s] at hs
    rw [hwalk 0 t] at ht
    exact hts.inj s t k hs ht
  · intro k hk
    rw [hlen2] at hk
    obtain ⟨s, hs⟩ := hts.surj k hk
    exact ⟨s, by rw [hwalk 0 s]; exact hs⟩
  · intro s k hs hk0
    rw [hwalk] at hs
    rw [hwalk]
    exact ((hdone2 k).1 s hs).1
  · intro s k hs j
    rw [hwalk] at hs
    rw [hbp]
    exact ((hdone2 k).1 s hs).2 j
  · intro k
    exact (hdone2 k).2

theorem label_length_lt_of {ns : List ACNode} (hwf : ArenaWF ns)
    (hinj0 : ∀ s t k, walkFrom ns 0 s = some k → walkFrom ns 0 t = some k → s = t)
    {s : List Char} {k : Nat} (h : walkFrom ns 0 s = some k) :
    s.length < ns.length := by
  have hinj : ∀ m ∈ List.range (s.length + 1), ∀ m' ∈ List.range (s.length + 1),
      (walkFrom ns 0 (s.take m)).getD 0 = (walkFrom ns 0 (s.take m')).getD 0 →
      m = m' := by
    intro m hm m' hm' heq
    rw [List.mem_range] at hm hm'
    obtain ⟨j, hj⟩ := Option.isSome_iff_exists.1 (walkFrom_take_isSome h m)
    obtain ⟨j', hj'⟩ := Option.isSome_iff_exists.1 (walkFrom_take_isSome h m')
    rw [hj, hj'] at heq
    simp only [Option.getD_some] at heq
    subst heq
    have heqtake := hinj0 _ _ _ hj hj'
    have hlen := congrArg List.length heqtake
    simp only [List.length_take] at hlen
    omega
  have hnodup : ((List.range (s.length + 1)).map
      (fun m => (walkFrom ns 0 (s.take m)).getD 0)).Nodup :=
    List.Nodup.map_on hinj (List.nodup_range _)
  have hsub : ((List.range (s.length + 1)).map
      (fun m => (walkFrom ns 0 (s.take m)).getD 0)).toFinset
        ⊆ Finset.range ns.length := by
    intro x hx
    rw [List.mem_toFinset] at hx
    obtain ⟨m, hm, hx'⟩ := List.mem_map.1 hx
    obtain ⟨j, hj⟩ := Option.isSome_iff_exists.1 (walkFrom_take_isSome h m)
    rw [Finset.mem_range, ← hx', hj]
    simpa using (walkFrom_bounds hwf hj hwf.root_lt).1
  have hcard := Finset.card_le_card hsub
  rw [List.toFinset_card_of_nodup hnodup] at hcard
  simpa using hcard

theorem proper_suffix_tail {u s : List Char} (h : u <:+ s) (hne : u ≠ s) :
    u <:+ s.tail := by
  cases s with
  | nil =>
    exact absurd (List.suffix_nil.1 h) hne
  | cons d rest =>
    rcases List.suffix_cons_iff.1 h with h1 | h1
    · exact absurd h1 hne
    · exact h1

theorem idsSuffixOf_lls (ps : List String) (t : List Char) :
    idsSuffixOf (ps.filter (fun p => !p.data.isEmpty)) (longestLabelSuffix ps t) =
      idsSuffixOf (ps.filter (fun p => !p.data.isEmpty)) t := by
  unfold idsSuffixOf
  apply List.filter_congr
  intro j hj
  rw [List.mem_range] at hj
  have hp : (ps.filter (fun p => !p.data.isEmpty))[j]? =
      some ((ps.filter (fun p => !p.data.isEmpty))[j]) := List.getElem?_eq_getElem hj
  set p := (ps.filter (fun p => !p.data.isEmpty))[j] with hpdef
  rw [hp]
  simp only [Option.getD_some]
  rw [Bool.eq_iff_iff, List.isSuffixOf_iff_suffix, List.isSuffixOf_iff_suffix]
  constructor
  · intro hsuf
    exact hsuf.trans (longestLabelSuffix_suffix ps t)
  · intro hsuf
    apply longestLabelSuffix_maximal hsuf
    have hpm := List.getElem?_mem hp
    rw [List.mem_filter] at hpm
    exact isLabelOf_iff.2 (Or.inr ⟨p, hpm.1, List.prefix_refl _⟩)

theorem eq_of_nodup_mem_le_one {l r : List Nat} (hn : l.Nodup) (hr : r.length ≤ 1)
    (hm : ∀ x, x ∈ l ↔ x ∈ r) : l = r := by
  cases r with
  | nil =>
    rw [List.eq_nil_iff_forall_not_mem]
    intro x hx
    exact List.not_mem_nil x ((hm x).1 hx)
  | cons a r' =>
    have hr' : r' = [] := by
      cases r' with
      | nil => rfl
      | cons b r'' => simp at hr
    subst hr'
    cases l with
    | nil =>
      exact absurd ((hm a).2 (List.mem_singleton_self a)) (List.not_mem_nil a)
    | cons b l' =>
      have hb : b = a := List.mem_singleton.1 ((hm b).1 (List.mem_cons_self b l'))
      subst hb
      have hl' : l' = [] := by
        rw [List.eq_nil_iff_forall_not_mem]
        intro x hx
        have := List.mem_singleton.1 ((hm x).1 (List.mem_cons_of_mem b hx))
        subst this
        exact (List.nodup_cons.1 hn).1 hx
      rw [hl']

theorem searchLoop_cons (ns : List ACNode) (pats : List String) (fuel i cur : Nat)
    (c : Char) (cs : List Char) :
    searchLoop ns pats fuel i cur (c :: cs) =
      (outOf ns ( nextState ns fuel c cur)).map (fun pid =>
        let pat := (pats[pid]?).getD ""
        (((i : Int) - (pat.length : Int) + 1), pat)) ++
      searchLoop ns pats fuel (i + 1) ( nextState ns fuel c cur) cs := by
  cases hl : lookupChild ns (walkFail ns c cur fuel) c with
  | none => simp [searchLoop, nextState, hl]
  | some j => simp [searchLoop, nextState, hl]

theorem stop_spec {ps : List String} {ac : AhoCorasick} (has : AutSpec ps ac)
    {t : List Char} {cur : Nat}
    (hcur : walkFrom ac.nodes 0 (longestLabelSuffix ps t) = some cur) (c : Char) :
    walkFrom ac.nodes 0 (chainStop ps c (longestLabelSuffix ps t)) =
      some (walkFail ac.nodes c cur ac.nodes.length) := by
  have hlt := label_length_lt_of has.wf has.inj hcur
  have hready : ∀ u k', walkFrom ac.nodes 0 u = some k' → u ≠ [] →
      u.length ≤ ac.nodes.length →
      walkFrom ac.nodes 0 (failLabel ps u) = some (failOf ac.nodes k') := by
    intro u k' hu hune hulen
    apply has.fail_spec u k' hu
    intro hk0
    subst hk0
    exact hune (has.inj u [] 0 hu rfl)
  exact walkFail_spec has.dom has.inj hready c ac.nodes.length _ cur hcur
    (le_of_lt hlt) hlt

theorem step_state {ps : List String} {ac : AhoCorasick} (has : AutSpec ps ac)
    {t : List Char} {cur : Nat}
    (hcur : walkFrom ac.nodes 0 (longestLabelSuffix ps t) = some cur) (c : Char) :
    walkFrom ac.nodes 0 (longestLabelSuffix ps (t ++ [c])) =
      some ( nextState ac.nodes ac.nodes.length c cur) := by
  have hstop := stop_spec has hcur c
  unfold nextState
  cases hl : lookupChild ac.nodes (walkFail ac.nodes c cur ac.nodes.length) c with
  | some j =>
    have hwalkc : walkFrom ac.nodes 0
        (chainStop ps c (longestLabelSuffix ps t) ++ [c]) = some j := by
      rw [walkFrom_append, hstop]
      simp [walkFrom, hl]
    have hlab : isLabelOf ps (chainStop ps c (longestLabelSuffix ps t) ++ [c]) = true := by
      rw [← has.dom, hwalkc]
      rfl
    rw [lls_step, if_pos hlab]
    exact hwalkc
  | none =>
    have hwalkc : walkFrom ac.nodes 0
        (chainStop ps c (longestLabelSuffix ps t) ++ [c]) = none := by
      rw [walkFrom_append, hstop]
      simp [walkFrom, hl]
    have hlab : isLabelOf ps (chainStop ps c (longestLabelSuffix ps t) ++ [c]) = false := by
      rw [← has.dom, hwalkc]
      rfl
    have hnot : ¬ isLabelOf ps (chainStop ps c (longestLabelSuffix ps t) ++ [c]) = true := by
      simp [hlab]
    rw [lls_step, if_neg hnot]
    have hcs0 : chainStop ps c (longestLabelSuffix ps t) = [] := by
      rcases chainStop_spec ps c (longestLabelSuffix ps t) with h | ⟨h1, h2⟩
      · exact h
      · rw [h2] at hlab
        exact absurd hlab (by simp)
    rw [hcs0] at hstop
    exact hstop

theorem searchLoop_multiset {ps : List String} {ac : AhoCorasick} (has : AutSpec ps ac)
    (T : List Char) :
    ∀ (cs t : List Char) (cur : Nat), T = t ++ cs →
      walkFrom ac.nodes 0 (longestLabelSuffix ps t) = some cur →
      ((searchLoop ac.nodes ac.patterns ac.nodes.length t.length cur cs :
          List (Int × String)) : Multiset (Int × String)) =
        ((List.range cs.length).map (fun m =>
          ((emitAt ac.patterns T (t.length + m) : List (Int × String)) :
            Multiset (Int × String)))).sum := by
  intro cs
  induction cs with
  | nil =>
    intro t cur hT hcur
    simp [searchLoop]
  | cons c cs ih =>
    intro t cur hT hcur
    have hw1 := step_state has hcur c
    have hT2 : T = (t ++ [c]) ++ cs := by
      rw [hT]
      simp
    have hmem : ∀ j, j ∈ outOf ac.nodes ( nextState ac.nodes ac.nodes.length c cur) ↔
        j ∈ idsSuffixOf ac.patterns (t ++ [c]) := by
      intro j
      rw [has.out_mem _ _ hw1 j, has.pats, idsSuffixOf_lls, ← has.pats]
    have hperm : (outOf ac.nodes ( nextState ac.nodes ac.nodes.length c cur)).Perm
        (idsSuffixOf ac.patterns (t ++ [c])) :=
      (List.perm_ext_iff_of_nodup (has.out_nodup _) (idsSuffixOf_nodup _ _)).2 hmem
    have htake : T.take (t.length + 1) = t ++ [c] := by
      rw [hT2]
      exact List.take_left' (by simp)
    have htail := ih (t ++ [c]) ( nextState ac.nodes ac.nodes.length c cur) hT2 hw1
    rw [show (t ++ [c]).length = t.length + 1 from by simp] at htail
    rw [searchLoop_cons, ← Multiset.coe_add, htail,
      Multiset.coe_eq_coe.2 (hperm.map (fun pid =>
        let pat := ((ac.patterns[pid]?).getD "")
        (((t.length : Int) - (pat.length : Int) + 1), pat)))]
    rw [List.length_cons, List.range_succ_eq_map, List.map_cons, List.sum_cons,
      List.map_map]
    congr 1
    · simp only [Nat.add_zero, emitAt, htake]
    · apply congrArg
      apply List.map_congr_left
      intro m hm
      simp only [Function.comp]
      rw [show t.length + Nat.succ m = t.length + 1 + m from by omega]

theorem searchLoop_eq_single {ps : List String} {ac : AhoCorasick} (has : AutSpec ps ac)
    (hone : ac.patterns.length ≤ 1) (T : List Char) :
    ∀ (cs t : List Char) (cur : Nat), T = t ++ cs →
      walkFrom ac.nodes 0 (longestLabelSuffix ps t) = some cur →
      searchLoop ac.nodes ac.patterns ac.nodes.length t.length cur cs =
        ((List.range cs.length).map (fun m =>
          emitAt ac.patterns T (t.length + m))).flatten := by
  intro cs
  induction cs with
  | nil =>
    intro t cur hT hcur
    simp [searchLoop]
  | cons c cs ih =>
    intro t cur hT hcur
    have hw1 := step_state has hcur c
    have hT2 : T = (t ++ [c]) ++ cs := by
      rw [hT]
      simp
    have hmem : ∀ j, j ∈ outOf ac.nodes ( nextState ac.nodes ac.nodes.length c cur) ↔
        j ∈ idsSuffixOf ac.patterns (t ++ [c]) := by
      intro j
      rw [has.out_mem _ _ hw1 j, has.pats, idsSuffixOf_lls, ← has.pats]
    have hlen1 : (idsSuffixOf ac.patterns (t ++ [c])).length ≤ 1 := by
      have h1 := (List.range ac.patterns.length).length_filter_le
        (fun j => ((ac.patterns[j]?).getD "").data.isSuffixOf (t ++ [c]))
      rw [List.length_range] at h1
      exact le_trans h1 hone
    have hout : outOf ac.nodes ( nextState ac.nodes ac.nodes.length c cur) =
        idsSuffixOf ac.patterns (t ++ [c]) :=
      eq_of_nodup_mem_le_one (has.out_nodup _) hlen1 hmem
    have htake : T.take (t.length + 1) = t ++ [c] := by
      rw [hT2]
      exact List.take_left' (by simp)
    have htail := ih (t ++ [c]) ( nextState ac.nodes ac.nodes.length c cur) hT2 hw1
    rw [show (t ++ [c]).length = t.length + 1 from by simp] at htail
    rw [searchLoop_cons, htail, hout]
    rw [List.length_cons, List.range_succ_eq_map, List.map_cons, List.flatten_cons,
      List.map_map]
    congr 1
    · simp only [Nat.add_zero, emitAt, htake]
    · apply congrArg
      apply List.map_congr_left
      intro m hm
      simp only [Function.comp]
      rw [show t.length + Nat.succ m = t.length + 1 + m from by omega]

theorem search_multiset (ps : List String) (T : String) :
    ((AhoCorasick.search (buildAutomaton ps) T : List (Int × String)) :
        Multiset (Int × String)) =
      ((List.range T.data.length).map (fun m =>
        ((emitAt (buildAutomaton ps).patterns T.data m : List (Int × String)) :
          Multiset (Int × String)))).sum := by
  have has := autSpec_buildAutomaton ps
  have h := searchLoop_multiset has T.data T.data [] 0 (by simp) rfl
  simp only [List.length_nil, Nat.zero_add] at h
  exact h

theorem map_getD_filter_range {α β : Type} (l : List α) (d : α) (p : α → Bool)
    (h : α → β) :
    ((List.range l.length).filter (fun j => p ((l[j]?).getD d))).map
        (fun j => h ((l[j]?).getD d)) = (l.filter p).map h := by
  induction l using List.reverseRecOn with
  | nil => rfl
  | append_singleton l a ih =>
    have hpt : ∀ j, j < l.length → (((l ++ [a])[j]?).getD d) = ((l[j]?).getD d) := by
      intro j hj
      rw [List.getElem?_append, if_pos hj]
    have hlen : (l ++ [a]).length = l.length + 1 := by simp
    rw [hlen, List.range_succ, List.filter_append, List.map_append]
    have hfilter : (List.range l.length).filter (fun j => p (((l ++ [a])[j]?).getD d)) =
        (List.range l.length).filter (fun j => p ((l[j]?).getD d)) := by
      apply List.filter_congr
      intro j hj
      rw [hpt j (List.mem_range.1 hj)]
    rw [hfilter]
    have hmap : ((List.range l.length).filter (fun j => p ((l[j]?).getD d))).map
        (fun j => h (((l ++ [a])[j]?).getD d)) =
        ((List.range l.length).filter (fun j => p ((l[j]?).getD d))).map
        (fun j => h ((l[j]?).getD d)) := by
      apply List.map_congr_left
      intro j hj
      rw [hpt j (List.mem_range.1 (List.mem_of_mem_filter hj))]
    rw [hmap, ih]
    have hgeta : (((l ++ [a])[l.length]?).getD d) = a := by
      rw [List.getElem?_append, if_neg (by omega)]
      simp
    have hsingle : (([l.length] : List Nat).filter
          (fun j => p (((l ++ [a])[j]?).getD d))).map
        (fun j => h (((l ++ [a])[j]?).getD d)) =
        ((if p a then [a] else []).map h : List β) := by
      by_cases hpa : p a = true
      · simp [List.filter, hgeta, hpa]
      · simp [List.filter, hgeta, hpa]
    rw [hsingle, List.filter_append, List.map_append]
    congr 1
    by_cases hpa : p a = true <;> simp [List.filter, hpa]

theorem emitAt_eq_filter (pats : List String) (T : List Char) (i : Nat) :
    emitAt pats T i = (pats.filter (fun pat => pat.data.isSuffixOf (T.take (i+1)))).map
      (fun pat => (((i : Int) - (pat.length : Int) + 1), pat)) := by
  unfold emitAt idsSuffixOf
  exact map_getD_filter_range pats ""
    (fun pat => pat.data.isSuffixOf (T.take (i+1)))
    (fun pat => (((i : Int) - (pat.length : Int) + 1), pat))

theorem emitAt_nil_pats (T : List Char) (i : Nat) :
    emitAt [] T i = [] := by
  simp [emitAt, idsSuffixOf]

theorem emitAt_cons_ms (P : String) (rest : List String) (T : List Char) (i : Nat) :
    ((emitAt (P :: rest) T i : List (Int × String)) : Multiset (Int × String)) =
      ((emitAt [P] T i : List (Int × String)) : Multiset (Int × String)) +
      ((emitAt rest T i : List (Int × String)) : Multiset (Int × String)) := by
  rw [emitAt_eq_filter, emitAt_eq_filter, emitAt_eq_filter]
  have h1 : (P :: rest).filter (fun pat => pat.data.isSuffixOf (T.take (i+1))) =
      (if P.data.isSuffixOf (T.take (i+1)) then [P] else []) ++
      rest.filter (fun pat => pat.data.isSuffixOf (T.take (i+1))) := by
    rw [List.filter_cons]
    by_cases hp : P.data.isSuffixOf (T.take (i+1)) = true <;> simp [hp]
  have h2 : ([P] : List String).filter (fun pat => pat.data.isSuffixOf (T.take (i+1))) =
      (if P.data.isSuffixOf (T.take (i+1)) then [P] else []) := by
    by_cases hp : P.data.isSuffixOf (T.take (i+1)) = true <;> simp [List.filter, hp]
  rw [h1, h2, List.map_append]
  exact (Multiset.coe_add _ _).symm

theorem sum_map_add_ms {α : Type} (l : List Nat) (f g : Nat → Multiset α) :
    (l.map (fun m => f m + g m)).sum = (l.map f).sum + (l.map g).sum := by
  induction l with
  | nil => simp
  | cons a l ih =>
    simp only [List.map_cons, List.sum_cons, ih]
    ac_rfl

theorem emit_superposition (T : List Char) (ps : List String) :
    ((List.range T.length).map (fun m =>
        ((emitAt (ps.filter (fun p => !p.data.isEmpty)) T m : List (Int × String)) :
          Multiset (Int × String)))).sum =
      (ps.map (fun P => ((List.range T.length).map (fun m =>
        ((emitAt ([P].filter (fun p => !p.data.isEmpty)) T m : List (Int × String)) :
          Multiset (Int × String)))).sum)).sum := by
  induction ps with
  | nil => simp [emitAt_nil_pats]
  | cons P ps ih =>
    rw [List.map_cons, List.sum_cons, ← ih]
    by_cases hP : P.data.isEmpty = true
    · have h1 : (P :: ps).filter (fun p => !p.data.isEmpty) =
          ps.filter (fun p => !p.data.isEmpty) := by
        rw [List.filter_cons]
        simp [hP]
      have h2 : ([P] : List String).filter (fun p => !p.data.isEmpty) = [] := by
        simp [List.filter, hP]
      rw [h1, h2]
      simp [emitAt_nil_pats]
    · have h1 : (P :: ps).filter (fun p => !p.data.isEmpty) =
          P :: ps.filter (fun p => !p.data.isEmpty) := by
        rw [List.filter_cons]
        simp [hP]
      have h2 : ([P] : List String).filter (fun p => !p.data.isEmpty) = [P] := by
        simp [List.filter, hP]
      rw [h1, h2]
      have h3 : ((List.range T.length).map (fun m =>
          ((emitAt (P :: ps.filter (fun p => !p.data.isEmpty)) T m :
            List (Int × String)) : Multiset (Int × String)))) =
          ((List.range T.length).map (fun m =>
          ((emitAt [P] T m : List (Int × String)) : Multiset (Int × String)) +
          ((emitAt (ps.filter (fun p => !p.data.isEmpty)) T m :
            List (Int × String)) : Multiset (Int × String)))) := by
        apply List.map_congr_left
        intro m hm
        exact emitAt_cons_ms P _ T m
      rw [h3, sum_map_add_ms]

/-- C2: the multiset of `(start offset, pattern)` matches returned by
searching `T` on the automaton built from all patterns together equals
the union (multiset sum) of the matches of single-pattern scans of `T`
against each pattern separately, and the match multiset is independent of
the order in which the patterns were inserted. -/
theorem multi_pattern_superposition (ps : List String) (T : String) :
    ((AhoCorasick.search (buildAutomaton ps) T : List (Int × String)) :
        Multiset (Int × String)) =
      (ps.map (fun P => ((AhoCorasick.search (buildAutomaton [P]) T :
        List (Int × String)) : Multiset (Int × String)))).sum ∧
    ∀ ps' : List String, ps'.Perm ps →
      ((AhoCorasick.search (buildAutomaton ps') T : List (Int × String)) :
        Multiset (Int × String)) =
      ((AhoCorasick.search (buildAutomaton ps) T : List (Int × String)) :
        Multiset (Int × String)) := by
  have hsingle : ∀ qs : List String,
      ((AhoCorasick.search (buildAutomaton qs) T : List (Int × String)) :
        Multiset (Int × String)) =
      (qs.map (fun P => ((AhoCorasick.search (buildAutomaton [P]) T :
        List (Int × String)) : Multiset (Int × String)))).sum := by
    intro qs
    rw [search_multiset qs T]
    rw [show (buildAutomaton qs).patterns = qs.filter (fun p => !p.data.isEmpty) from
      (autSpec_buildAutomaton qs).pats]
    rw [emit_superposition T.data qs]
    apply congrArg
    apply List.map_congr_left
    intro P hP
    rw [search_multiset [P] T, (autSpec_buildAutomaton [P]).pats]
  constructor
  · exact hsingle ps
  · intro ps' hperm
    rw [hsingle ps', hsingle ps]
    exact (hperm.map _).sum_eq

theorem multi_pattern_superposition_witness :
    (((AhoCorasick.search (buildAutomaton ["he", "she"]) "ushers" :
        List (Int × String)) : Multiset (Int × String)) =
      ((["he", "she"] : List String).map (fun P =>
        ((AhoCorasick.search (buildAutomaton [P]) "ushers" :
          List (Int × String)) : Multiset (Int × String)))).sum) ∧
    (["she", "he"] : List String).Perm ["he", "she"] ∧
    ((AhoCorasick.search (buildAutomaton ["she", "he"]) "ushers" :
        List (Int × String)) : Multiset (Int × String)) =
      ((AhoCorasick.search (buildAutomaton ["he", "she"]) "ushers" :
        List (Int × String)) : Multiset (Int × String)) :=
  ⟨(multi_pattern_superposition ["he", "she"] "ushers").1, by decide,
   (multi_pattern_superposition ["he", "she"] "ushers").2 ["she", "he"] (by decide)⟩

theorem flatten_if_singleton {α : Type} (l : List Nat) (c : Nat → Bool) (v : Nat → α) :
    (l.map (fun m => if c m = true then [v m] else [])).flatten = (l.filter c).map v := by
  induction l with
  | nil => rfl
  | cons a l ih =>
    rw [List.map_cons, List.flatten_cons, ih, List.filter_cons]
    by_cases hc : c a = true
    · rw [if_pos hc, if_pos hc]
      rfl
    · rw [if_neg hc, if_neg hc]
      rfl

theorem emitAt_single (P : String) (T : List Char) (i : Nat) :
    emitAt [P] T i = if P.data.isSuffixOf (T.take (i+1)) = true
      then [(((i : Int) - (P.length : Int) + 1), P)] else [] := by
  rw [emitAt_eq_filter]
  by_cases hp : P.data.isSuffixOf (T.take (i+1)) = true
  · rw [if_pos hp]
    simp [List.filter, hp]
  · rw [if_neg hp]
    simp [List.filter, hp]

theorem suffix_take_iff {P T : List Char} (m : Nat) (hm : m < T.length) :
    P <:+ T.take (m+1) ↔
      P.length ≤ m + 1 ∧ (T.drop (m + 1 - P.length)).take P.length = P := by
  have hlen : (T.take (m+1)).length = m + 1 := by
    rw [List.length_take]
    omega
  constructor
  · intro h
    have hle : P.length ≤ m + 1 := by
      have := h.length_le
      omega
    refine ⟨hle, ?_⟩
    have hdrop : P = (T.take (m+1)).drop ((T.take (m+1)).length - P.length) :=
      List.suffix_iff_eq_drop.1 h
    rw [hlen] at hdrop
    calc (T.drop (m + 1 - P.length)).take P.length
        = (T.drop (m + 1 - P.length)).take ((m + 1) - (m + 1 - P.length)) := by
          rw [show (m + 1) - (m + 1 - P.length) = P.length from by omega]
      _ = (T.take (m + 1)).drop (m + 1 - P.length) :=
          (List.drop_take (m + 1) (m + 1 - P.length) T).symm
      _ = P := hdrop.symm
  · rintro ⟨hle, heq⟩
    apply List.suffix_iff_eq_drop.2
    rw [hlen, List.drop_take,
      show (m + 1) - (m + 1 - P.length) = P.length from by omega]
    exact heq.symm

theorem single_offsets_eq (P T : List Char) (hP : P ≠ []) :
    ((List.range T.length).filter (fun m => P.isSuffixOf (T.take (m+1)))).map
        (fun (m : Nat) => ((m : Int) - (P.length : Int) + 1)) =
      (naiveMatches P T).map (fun (k : Nat) => (k : Int)) := by
  have hq1 : 1 ≤ P.length := by
    cases P with
    | nil => exact absurd rfl hP
    | cons a l => simp
  have hplA : ((List.range T.length).filter
      (fun m => P.isSuffixOf (T.take (m+1)))).Pairwise (· < ·) :=
    List.Pairwise.sublist (List.filter_sublist _) (List.pairwise_lt_range _)
  have hplB : (naiveMatches P T).Pairwise (· < ·) :=
    List.Pairwise.sublist (List.filter_sublist _) (List.pairwise_lt_range _)
  have hfA : ∀ a b : Nat, a < b →
      ((a : Int) - (P.length : Int) + 1) < ((b : Int) - (P.length : Int) + 1) := by
    intro a b hab
    omega
  have hfB : ∀ a b : Nat, a < b → ((a : Int) < (b : Int)) := by
    intro a b hab
    omega
  have hA : (((List.range T.length).filter
      (fun m => P.isSuffixOf (T.take (m+1)))).map
        (fun (m : Nat) => ((m : Int) - (P.length : Int) + 1))).Pairwise (· < ·) := by
    rw [List.pairwise_map]
    exact hplA.imp (fun hab => hfA _ _ hab)
  have hB : ((naiveMatches P T).map
      (fun (k : Nat) => (k : Int))).Pairwise (· < ·) := by
    rw [List.pairwise_map]
    exact hplB.imp (fun hab => hfB _ _ hab)
  have hmem : ∀ x, x ∈ ((List.range T.length).filter
      (fun m => P.isSuffixOf (T.take (m+1)))).map
        (fun (m : Nat) => ((m : Int) - (P.length : Int) + 1)) ↔
      x ∈ (naiveMatches P T).map (fun (k : Nat) => (k : Int)) := by
    intro x
    simp only [List.mem_map, List.mem_filter, List.mem_range, naiveMatches,
      decide_eq_true_eq, List.isSuffixOf_iff_suffix]
    constructor
    · rintro ⟨m, ⟨hmn, hsuf⟩, rfl⟩
      rw [suffix_take_iff m hmn] at hsuf
      obtain ⟨hle, heq⟩ := hsuf
      exact ⟨m + 1 - P.length, ⟨by omega, heq⟩, by omega⟩
    · rintro ⟨k, ⟨hkn, heq⟩, rfl⟩
      refine ⟨k + P.length - 1, ⟨by omega, ?_⟩, by omega⟩
      rw [suffix_take_iff (k + P.length - 1) (by omega)]
      refine ⟨by omega, ?_⟩
      rw [show k + P.length - 1 + 1 - P.length = k from by omega]
      exact heq
  have hperm := (List.perm_ext_iff_of_nodup
    (List.Pairwise.imp (fun hab => ne_of_lt hab) hA)
    (List.Pairwise.imp (fun hab => ne_of_lt hab) hB)).2 hmem
  exact List.eq_of_perm_of_sorted hperm
    (List.Pairwise.imp (fun hab => le_of_lt hab) hA)
    (List.Pairwise.imp (fun hab => le_of_lt hab) hB)

/-- C1: for every non-empty single pattern `P` and every text `T`,
building the automaton on `[P]` and searching `T` returns exactly the
start offsets at which `P` occurs in `T` — the offsets of the naive
sliding-window exact-match scan, in the same (increasing) order. -/
theorem single_pattern_naive (P T : String) (h : P.data ≠ []) :
    AhoCorasick.search (buildAutomaton [P]) T =
      (naiveMatches P.data T.data).map (fun (k : Nat) => ((k : Int), P)) := by
  have has := autSpec_buildAutomaton [P]
  have hpats : (buildAutomaton [P]).patterns = [P] := by
    rw [has.pats]
    have hne : (!P.data.isEmpty) = true := by
      simp [List.isEmpty_iff, h]
    simp [List.filter, hne]
  have hone : (buildAutomaton [P]).patterns.length ≤ 1 := by
    rw [hpats]
    simp
  have hh := searchLoop_eq_single has hone T.data T.data [] 0 (by simp) rfl
  simp only [List.length_nil, Nat.zero_add] at hh
  rw [hpats] at hh
  have hsearch : AhoCorasick.search (buildAutomaton [P]) T =
      ((List.range T.data.length).map (fun m => emitAt [P] T.data m)).flatten := by
    rw [← hh]
    unfold AhoCorasick.search
    rw [hpats]
  rw [hsearch]
  have hemit : ((List.range T.data.length).map (fun m => emitAt [P] T.data m)) =
      ((List.range T.data.length).map (fun (m : Nat) =>
        if P.data.isSuffixOf (T.data.take (m+1)) = true
        then [(((m : Int) - (P.length : Int) + 1), P)] else [])) :=
    List.map_congr_left (fun m hm => emitAt_single P T.data m)
  rw [hemit, flatten_if_singleton]
  have hfac : ∀ (l : List Nat) (f : Nat → Int),
      l.map (fun (m : Nat) => (f m, P)) = (l.map f).map (fun z => (z, P)) := by
    intro l f
    rw [List.map_map]
    rfl
  rw [hfac ((List.range T.data.length).filter
      (fun m => P.data.isSuffixOf (T.data.take (m+1))))
      (fun (m : Nat) => ((m : Int) - (P.length : Int) + 1)),
    hfac (naiveMatches P.data T.data) (fun (k : Nat) => (k : Int))]
  exact congrArg (List.map (fun z => (z, P))) (single_offsets_eq P.data T.data h)

theorem single_pattern_naive_witness :
    ("ab".data ≠ [] ∧
      AhoCorasick.search (buildAutomaton ["ab"]) "xabab" =
        (naiveMatches "ab".data "xabab".data).map
          (fun (k : Nat) => ((k : Int), "ab"))) :=
  ⟨by decide, single_pattern_naive "ab" "xabab" (by decide)⟩

/-- C3: after `build_failure_links` completes, every non-root state's
failure link points to the state whose path-label is the longest proper
suffix of that state's path-label that is itself the path-label of some
state of the trie (the root, labelled `[]`, when no longer such suffix
exists). -/
theorem failure_link_longest (ps : List String) (s : List Char) (k : Nat)
    (hs : walkFrom (buildAutomaton ps).nodes 0 s = some k) (hk : k ≠ 0) :
    ∃ t, t <:+ s ∧ t ≠ s ∧
      walkFrom (buildAutomaton ps).nodes 0 t =
        some (failOf (buildAutomaton ps).nodes k) ∧
      ∀ u, u <:+ s → u ≠ s →
        (walkFrom (buildAutomaton ps).nodes 0 u).isSome = true →
        u.length ≤ t.length := by
  have has := autSpec_buildAutomaton ps
  have hsne : s ≠ [] := by
    intro h0
    subst h0
    exact hk (Option.some_inj.1 hs).symm
  refine ⟨failLabel ps s, failLabel_suffix hsne, ?_, has.fail_spec s k hs hk, ?_⟩
  · intro heq
    have := @failLabel_length_lt ps _ hsne
    rw [heq] at this
    omega
  · intro u hu hune husome
    have hulab : isLabelOf ps u = true := by
      rw [← has.dom]
      exact husome
    exact (longestLabelSuffix_maximal (proper_suffix_tail hu hune) hulab).length_le

theorem failure_link_longest_witness :
    (walkFrom (buildAutomaton ["he", "she", "hers"]).nodes 0 ['s','h','e'] = some 5 ∧
      (5 : Nat) ≠ 0) ∧
    (∃ t, t <:+ ['s','h','e'] ∧ t ≠ ['s','h','e'] ∧
      walkFrom (buildAutomaton ["he", "she", "hers"]).nodes 0 t =
        some (failOf (buildAutomaton ["he", "she", "hers"]).nodes 5) ∧
      ∀ u, u <:+ ['s','h','e'] → u ≠ ['s','h','e'] →
        (walkFrom (buildAutomaton ["he", "she", "hers"]).nodes 0 u).isSome = true →
        u.length ≤ t.length) :=
  ⟨⟨by decide, by decide⟩,
    failure_link_longest ["he", "she", "hers"] ['s','h','e'] 5 (by decide) (by decide)⟩

/-- C6: the fallback loop of `search` terminates at every character: its
fuelled embedding computes the same stop node for every fuel of at least
the node count (the fuel `search` supplies), the stop node is the root or
has a transition on the character, and from any non-root state the
failure link strictly decreases the state's depth (label length). -/
theorem fallback_terminates (ps : List String) (c : Char) (s : List Char) (k : Nat)
    (hs : walkFrom (buildAutomaton ps).nodes 0 s = some k) :
    (∀ fuel, (buildAutomaton ps).nodes.length ≤ fuel →
      walkFail (buildAutomaton ps).nodes c k fuel =
        walkFail (buildAutomaton ps).nodes c k (buildAutomaton ps).nodes.length) ∧
    (walkFail (buildAutomaton ps).nodes c k (buildAutomaton ps).nodes.length = 0 ∨
      (lookupChild (buildAutomaton ps).nodes
        (walkFail (buildAutomaton ps).nodes c k (buildAutomaton ps).nodes.length)
        c).isSome = true) ∧
    (k ≠ 0 → ∃ t, t.length < s.length ∧
      walkFrom (buildAutomaton ps).nodes 0 t =
        some (failOf (buildAutomaton ps).nodes k)) := by
  have has := autSpec_buildAutomaton ps
  have hlt := label_length_lt_of has.wf has.inj hs
  have hready : ∀ u k', walkFrom (buildAutomaton ps).nodes 0 u = some k' → u ≠ [] →
      u.length ≤ (buildAutomaton ps).nodes.length →
      walkFrom (buildAutomaton ps).nodes 0 (failLabel ps u) =
        some (failOf (buildAutomaton ps).nodes k') := by
    intro u k' hu hune hulen
    apply has.fail_spec u k' hu
    intro hk0
    subst hk0
    exact hune (has.inj u [] 0 hu rfl)
  refine ⟨?_, ?_, ?_⟩
  · intro fuel hfl
    have h1 := walkFail_spec has.dom has.inj hready c fuel s k hs (le_of_lt hlt)
      (le_trans hlt hfl)
    have h2 := walkFail_spec has.dom has.inj hready c
      (buildAutomaton ps).nodes.length s k hs (le_of_lt hlt) hlt
    rw [h1] at h2
    exact Option.some_inj.1 h2
  · have h2 := walkFail_spec has.dom has.inj hready c
      (buildAutomaton ps).nodes.length s k hs (le_of_lt hlt) hlt
    rcases chainStop_spec ps c s with h0 | ⟨h1ab, h2ab⟩
    · left
      rw [h0] at h2
      exact (Option.some_inj.1 h2).symm
    · right
      have hsome : (walkFrom (buildAutomaton ps).nodes 0
          (chainStop ps c s ++ [c])).isSome = true := by
        rw [has.dom]
        exact h2ab
      have hred : ∀ st : Nat, (walkFrom (buildAutomaton ps).nodes st [c]).isSome =
          (lookupChild (buildAutomaton ps).nodes st c).isSome := by
        intro st
        cases hl : lookupChild (buildAutomaton ps).nodes st c with
        | some j => simp [walkFrom, hl]
        | none => simp [walkFrom, hl]
      rw [walkFrom_append, h2] at hsome
      simpa [hred] using hsome
  · intro hk
    have hsne : s ≠ [] := by
      intro h0
      subst h0
      exact hk (Option.some_inj.1 hs).symm
    exact ⟨failLabel ps s, failLabel_length_lt hsne, has.fail_spec s k hs hk⟩

theorem fallback_terminates_witness :
    (walkFrom (buildAutomaton ["he", "she", "hers"]).nodes 0 ['s','h','e'] = some 5) ∧
    ((∀ fuel, (buildAutomaton ["he", "she", "hers"]).nodes.length ≤ fuel →
      walkFail (buildAutomaton ["he", "she", "hers"]).nodes 'x' 5 fuel =
        walkFail (buildAutomaton ["he", "she", "hers"]).nodes 'x' 5
          (buildAutomaton ["he", "she", "hers"]).nodes.length) ∧
    (walkFail (buildAutomaton ["he", "she", "hers"]).nodes 'x' 5
        (buildAutomaton ["he", "she", "hers"]).nodes.length = 0 ∨
      (lookupChild (buildAutomaton ["he", "she", "hers"]).nodes
        (walkFail (buildAutomaton ["he", "she", "hers"]).nodes 'x' 5
          (buildAutomaton ["he", "she", "hers"]).nodes.length)
        'x').isSome = true) ∧
    ((5 : Nat) ≠ 0 → ∃ t, t.length < (['s','h','e'] : List Char).length ∧
      walkFrom (buildAutomaton ["he", "she", "hers"]).nodes 0 t =
        some (failOf (buildAutomaton ["he", "she", "hers"]).nodes 5))) :=
  ⟨by decide, fallback_terminates ["he", "she", "hers"] 'x' ['s','h','e'] 5 (by decide)⟩

theorem add_pattern_duplicate_witness :
    (("ab" : String) ≠ "" ∧
      AhoCorasick.search (buildAutomaton ["ab", "ab"]) "ab" = [(0, "ab"), (0, "ab")]) :=
  ⟨by decide, (add_pattern_duplicate [] "ab" (by decide)).2.2.2.2⟩
